import Mathlib

/-!
Verification of the 3-D software renderer (math kernel, rasterizer, lighting,
scene orchestration).

Numeric model: the Rust code computes in `f32`.  We use an exact-value model:
each finite float value is modelled by the rational number it denotes
(rounding is not modelled), and the IEEE special values NaN and the two
infinities -- which the rasterizer can actually produce by dividing by a zero
barycentric denominator -- are modelled explicitly by the `EFloat` type.
Square roots and trigonometric functions, which are irrational, are modelled
over the real numbers in the later sections.
-/

namespace Renderer3D

/-- Exact-value model of an IEEE `f32`: either NaN, an infinity, or a finite
value modelled by the exact rational it denotes.  The finite zero is treated
as `+0` (the only zero the rasterizer's subtraction `a - a` can produce in
round-to-nearest). -/
inductive EFloat where
  | nan : EFloat
  | inf : EFloat
  | ninf : EFloat
  | fin : ℚ → EFloat
deriving DecidableEq

/-- IEEE negation on the exact-value float model. -/
def EFloat.neg : EFloat → EFloat
  | nan => nan
  | inf => ninf
  | ninf => inf
  | fin q => fin (-q)

/-- IEEE addition on the exact-value float model (opposite infinities give
NaN; finite addition is exact). -/
def EFloat.add : EFloat → EFloat → EFloat
  | nan, _ => nan
  | _, nan => nan
  | inf, ninf => nan
  | ninf, inf => nan
  | inf, _ => inf
  | _, inf => inf
  | ninf, _ => ninf
  | _, ninf => ninf
  | fin a, fin b => fin (a + b)

/-- IEEE subtraction, i.e. addition of the negation. -/
def EFloat.sub (a b : EFloat) : EFloat := EFloat.add a (EFloat.neg b)

/-- IEEE multiplication on the exact-value float model (zero times an
infinity is NaN; finite multiplication is exact). -/
def EFloat.mul : EFloat → EFloat → EFloat
  | nan, _ => nan
  | _, nan => nan
  | inf, inf => inf
  | inf, ninf => ninf
  | ninf, inf => ninf
  | ninf, ninf => inf
  | inf, fin q => if q = 0 then nan else if 0 < q then inf else ninf
  | fin q, inf => if q = 0 then nan else if 0 < q then inf else ninf
  | ninf, fin q => if q = 0 then nan else if 0 < q then ninf else inf
  | fin q, ninf => if q = 0 then nan else if 0 < q then ninf else inf
  | fin a, fin b => fin (a * b)

/-- IEEE division on the exact-value float model.  A nonzero finite value
divided by zero gives a signed infinity (the model's finite zero is `+0`,
matching the zero produced by `a - a`); `0/0` gives NaN. -/
def EFloat.div : EFloat → EFloat → EFloat
  | nan, _ => nan
  | _, nan => nan
  | inf, inf => nan
  | inf, ninf => nan
  | ninf, inf => nan
  | ninf, ninf => nan
  | inf, fin q => if 0 ≤ q then inf else ninf
  | ninf, fin q => if 0 ≤ q then ninf else inf
  | fin _, inf => fin 0
  | fin _, ninf => fin 0
  | fin a, fin b =>
      if b = 0 then (if a = 0 then nan else if 0 < a then inf else ninf)
      else fin (a / b)

/-- IEEE strict less-than: any comparison with NaN is false. -/
def EFloat.blt : EFloat → EFloat → Bool
  | nan, _ => false
  | _, nan => false
  | ninf, ninf => false
  | ninf, _ => true
  | _, ninf => false
  | inf, _ => false
  | fin _, inf => true
  | fin a, fin b => decide (a < b)

/-- IEEE less-or-equal: any comparison with NaN is false. -/
def EFloat.ble : EFloat → EFloat → Bool
  | nan, _ => false
  | _, nan => false
  | ninf, _ => true
  | _, ninf => false
  | _, inf => true
  | inf, fin _ => false
  | fin a, fin b => decide (a ≤ b)

/-- Model of `Vec2f` (src/math/vec2.rs): a pair of `f32` coordinates,
modelled by exact rationals. -/
structure Vec2f where
  x : ℚ
  y : ℚ
deriving DecidableEq

/-- Model of `Vec2f::dot` (src/math/vec2.rs). -/
def Vec2f.dot (a b : Vec2f) : ℚ := a.x * b.x + a.y * b.y

/-- The barycentric denominator `dot00 * dot11 - dot01 * dot01` computed by
`Renderer::barycentric_coordinates` (src/renderer.rs line 38): the quantity
whose reciprocal is taken with no guard. -/
def baryDenom (v0 v1 v2 : Vec2f) : ℚ :=
  let v0v1 := Vec2f.mk (v1.x - v0.x) (v1.y - v0.y)
  let v0v2 := Vec2f.mk (v2.x - v0.x) (v2.y - v0.y)
  v0v2.dot v0v2 * v0v1.dot v0v1 - v0v1.dot v0v2 * v0v1.dot v0v2

/-- Model of `Renderer::barycentric_coordinates` (src/renderer.rs lines
25-44).  All dot products are exact rationals; the unguarded division
`1.0 / (dot00 * dot11 - dot01 * dot01)` and the products with its result are
taken in the special-value float model, since a degenerate triangle makes the
denominator zero and the reciprocal infinite. -/
def barycentric_coordinates (p v0 v1 v2 : Vec2f) : EFloat × EFloat × EFloat :=
  let v0v1 := Vec2f.mk (v1.x - v0.x) (v1.y - v0.y)
  let v0v2 := Vec2f.mk (v2.x - v0.x) (v2.y - v0.y)
  let v0p := Vec2f.mk (p.x - v0.x) (p.y - v0.y)
  let dot00 := v0v2.dot v0v2
  let dot01 := v0v1.dot v0v2
  let dot02 := v0v2.dot v0p
  let dot11 := v0v1.dot v0v1
  let dot12 := v0v1.dot v0p
  let inv_denom := EFloat.div (.fin 1) (.fin (dot00 * dot11 - dot01 * dot01))
  let u := EFloat.mul (.fin (dot11 * dot02 - dot01 * dot12)) inv_denom
  let v := EFloat.mul (.fin (dot00 * dot12 - dot01 * dot02)) inv_denom
  let w := EFloat.sub (EFloat.sub (.fin 1) u) v
  (u, v, w)

/-- Model of the `Renderer` (src/renderer.rs lines 3-8).  The framebuffer
(`Vec<u32>` of ARGB pixels) and the depth buffer (`Vec<f32>`) both have
length `width * height`; they are modelled as total maps from indices, with
every Rust indexing operation bounds-checked against `width * height` in the
functions below (`Vec` indexing past the length panics, modelled by
`Option.none`). -/
structure Renderer where
  width : ℕ
  height : ℕ
  framebuffer : ℕ → ℕ
  z_buffer : ℕ → EFloat

/-- Model of `Renderer::new` (src/renderer.rs lines 11-18): black opaque
framebuffer, depth buffer all `+infinity`. -/
def Renderer.new (w h : ℕ) : Renderer :=
  ⟨w, h, fun _ => 0xFF000000, fun _ => .inf⟩

/-- Model of the Rust cast `as u32` applied to an `i32` value (two's
complement wrap-around). -/
def u32ofInt (n : ℤ) : ℕ := (n % 4294967296).toNat

/-- Model of `Renderer::set_pixel` (src/renderer.rs lines 268-273): writes
the framebuffer only when `x < width && y < height`, otherwise a silent
no-op.  `x` and `y` are the `u32` arguments. -/
def Renderer.set_pixel (r : Renderer) (x y : ℕ) (color : ℕ) : Renderer :=
  if x < r.width ∧ y < r.height then
    { r with framebuffer := fun i => if i = y * r.width + x then color else r.framebuffer i }
  else r

/-- Model of `Renderer::clear` (src/renderer.rs lines 258-266): every
framebuffer pixel set to `color`, every depth entry to `+infinity`. -/
def Renderer.clear (r : Renderer) (color : ℕ) : Renderer :=
  { r with framebuffer := fun _ => color, z_buffer := fun _ => .inf }

/-- The inside-the-triangle test of `Renderer::draw_triangle`
(src/renderer.rs line 63) at candidate pixel `(y, x)`:
`u >= 0.0 && v >= 0.0 && w >= 0.0` on the barycentric weights of the pixel
center `(x as f32, y as f32)`. -/
def insideB (v0 v1 v2 : Vec2f) (yx : ℤ × ℤ) : Bool :=
  let uvw := barycentric_coordinates (Vec2f.mk (yx.2 : ℚ) (yx.1 : ℚ)) v0 v1 v2
  EFloat.ble (.fin 0) uvw.1 && EFloat.ble (.fin 0) uvw.2.1 && EFloat.ble (.fin 0) uvw.2.2

/-- The interpolated depth `u * z0 + v * z1 + w * z2` of
`Renderer::draw_triangle` (src/renderer.rs line 65) at candidate pixel
`(y, x)`. -/
def interpDepth (v0 v1 v2 : Vec2f) (z0 z1 z2 : ℚ) (yx : ℤ × ℤ) : EFloat :=
  let uvw := barycentric_coordinates (Vec2f.mk (yx.2 : ℚ) (yx.1 : ℚ)) v0 v1 v2
  EFloat.add (EFloat.add (EFloat.mul uvw.1 (.fin z0))
    (EFloat.mul uvw.2.1 (.fin z1))) (EFloat.mul uvw.2.2 (.fin z2))

/-- The body of the rasterization loop of `Renderer::draw_triangle`
(src/renderer.rs lines 57-74) for one candidate pixel `(y, x)` (the inside
test and the depth interpolation, which the source computes from one set of
barycentric weights, are the named functions `insideB` and `interpDepth`):
if the pixel is inside, index the depth buffer at `(y * width + x) as usize`
with NO bounds check (`none` models the Rust panic when that index is out of
the buffer, including the wrap-around of a negative index cast to `usize`),
then run the depth test; on success write the depth and run the
bounds-checked `set_pixel` on the `u32`-cast coordinates. -/
def drawTrianglePixel (v0 v1 v2 : Vec2f) (z0 z1 z2 : ℚ) (color : ℕ)
    (r : Renderer) (yx : ℤ × ℤ) : Option Renderer :=
  if insideB v0 v1 v2 yx then
    let depth := interpDepth v0 v1 v2 z0 z1 z2 yx
    let pixel_index : ℤ := yx.1 * (r.width : ℤ) + yx.2
    if 0 ≤ pixel_index ∧ pixel_index < (r.width : ℤ) * (r.height : ℤ) then
      if EFloat.blt depth (r.z_buffer pixel_index.toNat) then
        some (Renderer.set_pixel
          { r with z_buffer := fun i => if i = pixel_index.toNat then depth else r.z_buffer i }
          (u32ofInt yx.2) (u32ofInt yx.1) color)
      else some r
    else none
  else some r

/-- The inclusive integer range `[a, b]` as a list (empty when `b < a`),
modelling the Rust iterator `a..=b`. -/
def intRange (a b : ℤ) : List ℤ := (List.range (b + 1 - a).toNat).map (fun (i : ℕ) => a + (i : ℤ))

/-- The list of candidate pixels `(y, x)` visited by the two nested loops of
`Renderer::draw_triangle` (src/renderer.rs lines 57-58), in row-major
order. -/
def bboxList (min_y max_y min_x max_x : ℤ) : List (ℤ × ℤ) :=
  (intRange min_y max_y).flatMap (fun y => (intRange min_x max_x).map (fun x => (y, x)))

/-- Bounding-box left edge `(v0.x.min(v1.x).min(v2.x)).floor() as i32` of
`Renderer::draw_triangle` (src/renderer.rs line 51). -/
def bboxMinX (v0 v1 v2 : Vec2f) : ℤ := (min (min v0.x v1.x) v2.x).floor

/-- Bounding-box right edge (ceil of the max of the x coordinates). -/
def bboxMaxX (v0 v1 v2 : Vec2f) : ℤ := (max (max v0.x v1.x) v2.x).ceil

/-- Bounding-box top edge (floor of the min of the y coordinates). -/
def bboxMinY (v0 v1 v2 : Vec2f) : ℤ := (min (min v0.y v1.y) v2.y).floor

/-- Bounding-box bottom edge (ceil of the max of the y coordinates). -/
def bboxMaxY (v0 v1 v2 : Vec2f) : ℤ := (max (max v0.y v1.y) v2.y).ceil

/-- Model of `Renderer::draw_triangle` (src/renderer.rs lines 46-76):
bounding box of the three screen vertices via floor/ceil, then the
row-major per-pixel loop.  `none` models a Rust index-out-of-range panic on
the unchecked depth-buffer access. -/
def draw_triangle (r : Renderer) (v0 v1 v2 : Vec2f) (z0 z1 z2 : ℚ) (color : ℕ) :
    Option Renderer :=
  List.foldlM (drawTrianglePixel v0 v1 v2 z0 z1 z2 color) r
    (bboxList (bboxMinY v0 v1 v2) (bboxMaxY v0 v1 v2) (bboxMinX v0 v1 v2) (bboxMaxX v0 v1 v2))

/-! Characterization of one `draw_triangle` call, pixel by pixel.  A pixel
`(y, x)` is called on-screen when `0 ≤ x < width` and `0 ≤ y < height`; two
distinct on-screen pixels write to two distinct buffer indices, so when the
whole bounding box is on-screen the final buffer contents at an index are
decided by the single loop iteration that owns that index. -/

/-- The pure buffer update performed by one loop iteration of
`draw_triangle` on an inside pixel whose buffer index is in range: the
depth test, then the depth write and the pixel write at the common
row-major index. -/
def pixUpdate (v0 v1 v2 : Vec2f) (z0 z1 z2 : ℚ) (color : ℕ)
    (r : Renderer) (yx : ℤ × ℤ) : Renderer :=
  let depth := interpDepth v0 v1 v2 z0 z1 z2 yx
  let idx := (yx.1 * (r.width : ℤ) + yx.2).toNat
  if EFloat.blt depth (r.z_buffer idx) then
    { r with
      framebuffer := fun i => if i = idx then color else r.framebuffer i,
      z_buffer := fun i => if i = idx then depth else r.z_buffer i }
  else r

theorem mem_intRange {a b x : ℤ} : x ∈ intRange a b ↔ a ≤ x ∧ x ≤ b := by
  simp only [intRange, List.mem_map, List.mem_range]
  constructor
  · rintro ⟨i, hi, rfl⟩
    omega
  · intro h
    exact ⟨(x - a).toNat, by omega, by omega⟩

theorem intRange_nodup (a b : ℤ) : (intRange a b).Nodup := by
  unfold intRange
  exact (List.nodup_range _).map (fun i j h => by omega)

theorem mem_bboxList {my My mx Mx : ℤ} {p : ℤ × ℤ} :
    p ∈ bboxList my My mx Mx ↔ my ≤ p.1 ∧ p.1 ≤ My ∧ mx ≤ p.2 ∧ p.2 ≤ Mx := by
  simp only [bboxList, List.mem_flatMap, List.mem_map, mem_intRange]
  constructor
  · rintro ⟨y, hy, x, hx, rfl⟩
    exact ⟨hy.1, hy.2, hx.1, hx.2⟩
  · rintro ⟨h1, h2, h3, h4⟩
    exact ⟨p.1, ⟨h1, h2⟩, p.2, ⟨h3, h4⟩, rfl⟩

theorem bboxList_nodup (my My mx Mx : ℤ) : (bboxList my My mx Mx).Nodup := by
  rw [bboxList, List.nodup_flatMap]
  constructor
  · intro y _
    exact (intRange_nodup mx Mx).map (fun a b h => congrArg Prod.snd h)
  · refine List.Pairwise.imp ?_ (intRange_nodup my My)
    intro a b hab p hp hq
    simp only [List.mem_map] at hp hq
    obtain ⟨x1, _, rfl⟩ := hp
    obtain ⟨x2, _, h2⟩ := hq
    exact hab (congrArg Prod.fst h2).symm

/-- Option-monad fold over an appended list splits into two folds. -/
theorem foldlM_append_option {σ α : Type} (f : σ → α → Option σ) (l₁ l₂ : List α) (s : σ) :
    List.foldlM f s (l₁ ++ l₂) = (List.foldlM f s l₁).bind (fun s₁ => List.foldlM f s₁ l₂) := by
  induction l₁ generalizing s with
  | nil => simp
  | cons a t ih =>
      cases h : f s a with
      | none => simp [List.foldlM_cons, h]
      | some s₂ => simp [List.foldlM_cons, h, ih]

theorem drawTrianglePixel_not_inside {v0 v1 v2 : Vec2f} {z0 z1 z2 : ℚ} {color : ℕ}
    {r : Renderer} {yx : ℤ × ℤ} (h : insideB v0 v1 v2 yx = false) :
    drawTrianglePixel v0 v1 v2 z0 z1 z2 color r yx = some r := by
  simp [drawTrianglePixel, h]

theorem u32ofInt_eq {x : ℤ} (h0 : 0 ≤ x) (h1 : x < 4294967296) : u32ofInt x = x.toNat := by
  simp only [u32ofInt]
  omega

/-- On an on-screen inside pixel (with `u32`-representable dimensions) one
loop iteration succeeds and performs exactly the pure update `pixUpdate`. -/
theorem drawTrianglePixel_inside {v0 v1 v2 : Vec2f} {z0 z1 z2 : ℚ} {color : ℕ}
    {r : Renderer} {yx : ℤ × ℤ}
    (hin : insideB v0 v1 v2 yx = true)
    (hW : r.width < 4294967296) (hH : r.height < 4294967296)
    (hy0 : 0 ≤ yx.1) (hy1 : yx.1 < (r.height : ℤ))
    (hx0 : 0 ≤ yx.2) (hx1 : yx.2 < (r.width : ℤ)) :
    drawTrianglePixel v0 v1 v2 z0 z1 z2 color r yx =
      some (pixUpdate v0 v1 v2 z0 z1 z2 color r yx) := by
  obtain ⟨y, x⟩ := yx
  simp only [Prod.fst, Prod.snd] at hy0 hy1 hx0 hx1
  obtain ⟨Y, rfl⟩ : ∃ n : ℕ, y = (n : ℤ) := ⟨y.toNat, (Int.toNat_of_nonneg hy0).symm⟩
  obtain ⟨X, rfl⟩ : ∃ n : ℕ, x = (n : ℤ) := ⟨x.toNat, (Int.toNat_of_nonneg hx0).symm⟩
  have hYH : Y < r.height := by exact_mod_cast hy1
  have hXW : X < r.width := by exact_mod_cast hx1
  have hidx : ((Y : ℤ) * (r.width : ℤ) + (X : ℤ)) = ((Y * r.width + X : ℕ) : ℤ) := by
    push_cast
    ring
  have hnatlt : Y * r.width + X < r.width * r.height := by
    calc Y * r.width + X < Y * r.width + r.width := by omega
    _ = (Y + 1) * r.width := by ring
    _ ≤ r.height * r.width := Nat.mul_le_mul_right _ (by omega)
    _ = r.width * r.height := Nat.mul_comm _ _
  have hbound : (0 : ℤ) ≤ (Y : ℤ) * (r.width : ℤ) + (X : ℤ) ∧
      (Y : ℤ) * (r.width : ℤ) + (X : ℤ) < (r.width : ℤ) * (r.height : ℤ) := by
    refine ⟨by positivity, ?_⟩
    rw [hidx]
    exact_mod_cast hnatlt
  have htn : ((Y : ℤ) * (r.width : ℤ) + (X : ℤ)).toNat = Y * r.width + X := by
    rw [hidx]
    exact Int.toNat_natCast _
  have hxu : u32ofInt (X : ℤ) = X := by
    rw [u32ofInt_eq (by positivity) (by exact_mod_cast by omega)]
    exact Int.toNat_natCast _
  have hyu : u32ofInt (Y : ℤ) = Y := by
    rw [u32ofInt_eq (by positivity) (by exact_mod_cast by omega)]
    exact Int.toNat_natCast _
  simp only [drawTrianglePixel, pixUpdate, hin, if_true, if_pos hbound, htn]
  cases hcond : EFloat.blt (interpDepth v0 v1 v2 z0 z1 z2 ((Y : ℤ), (X : ℤ)))
      (r.z_buffer (Y * r.width + X)) with
  | false => simp [hcond]
  | true =>
      simp only [hcond, if_true]
      simp only [Renderer.set_pixel, hxu, hyu]
      rw [if_pos (show X < r.width ∧ Y < r.height from ⟨hXW, hYH⟩)]

theorem pixUpdate_width (v0 v1 v2 : Vec2f) (z0 z1 z2 : ℚ) (color : ℕ)
    (r : Renderer) (yx : ℤ × ℤ) :
    (pixUpdate v0 v1 v2 z0 z1 z2 color r yx).width = r.width ∧
    (pixUpdate v0 v1 v2 z0 z1 z2 color r yx).height = r.height := by
  simp only [pixUpdate]
  split <;> simp

theorem pixUpdate_other {v0 v1 v2 : Vec2f} {z0 z1 z2 : ℚ} {color : ℕ}
    {r : Renderer} {yx : ℤ × ℤ} {j : ℕ}
    (hj : j ≠ (yx.1 * (r.width : ℤ) + yx.2).toNat) :
    (pixUpdate v0 v1 v2 z0 z1 z2 color r yx).z_buffer j = r.z_buffer j ∧
    (pixUpdate v0 v1 v2 z0 z1 z2 color r yx).framebuffer j = r.framebuffer j := by
  simp only [pixUpdate]
  split <;> simp [hj]

theorem pixUpdate_self {v0 v1 v2 : Vec2f} {z0 z1 z2 : ℚ} {color : ℕ}
    {r : Renderer} {yx : ℤ × ℤ} :
    (pixUpdate v0 v1 v2 z0 z1 z2 color r yx).z_buffer
        (yx.1 * (r.width : ℤ) + yx.2).toNat =
      (if EFloat.blt (interpDepth v0 v1 v2 z0 z1 z2 yx)
          (r.z_buffer (yx.1 * (r.width : ℤ) + yx.2).toNat) = true
       then interpDepth v0 v1 v2 z0 z1 z2 yx
       else r.z_buffer (yx.1 * (r.width : ℤ) + yx.2).toNat) ∧
    (pixUpdate v0 v1 v2 z0 z1 z2 color r yx).framebuffer
        (yx.1 * (r.width : ℤ) + yx.2).toNat =
      (if EFloat.blt (interpDepth v0 v1 v2 z0 z1 z2 yx)
          (r.z_buffer (yx.1 * (r.width : ℤ) + yx.2).toNat) = true
       then color
       else r.framebuffer (yx.1 * (r.width : ℤ) + yx.2).toNat) := by
  simp only [pixUpdate]
  split <;> simp_all

/-- Distinct on-screen pixels own distinct row-major buffer indices. -/
theorem pixIndex_inj {W : ℕ} {qy qx py px : ℤ}
    (hqy : 0 ≤ qy) (hqx0 : 0 ≤ qx) (hqx1 : qx < (W : ℤ))
    (hpy : 0 ≤ py) (hpx0 : 0 ≤ px) (hpx1 : px < (W : ℤ))
    (h : qy * (W : ℤ) + qx = py * (W : ℤ) + px) : qy = py ∧ qx = px := by
  have hW0 : (0 : ℤ) < (W : ℤ) := by omega
  have key : (qy - py) * (W : ℤ) = px - qx := by linear_combination h
  rcases lt_trichotomy qy py with hlt | heq | hgt
  · have h1 : qy - py ≤ -1 := by omega
    have h2 : (qy - py) * (W : ℤ) ≤ -1 * (W : ℤ) :=
      mul_le_mul_of_nonneg_right h1 (le_of_lt hW0)
    rw [neg_one_mul] at h2
    linarith
  · refine ⟨heq, ?_⟩
    rw [heq, sub_self, zero_mul] at key
    omega
  · have h1 : 1 ≤ qy - py := by omega
    have h2 : 1 * (W : ℤ) ≤ (qy - py) * (W : ℤ) :=
      mul_le_mul_of_nonneg_right h1 (le_of_lt hW0)
    rw [one_mul] at h2
    linarith

/-- Folding the loop body over a list of on-screen pixels none of which owns
buffer index `j` succeeds and leaves both buffers unchanged at `j` (and the
dimensions unchanged). -/
theorem fold_frame {W H : ℕ} {v0 v1 v2 : Vec2f} {z0 z1 z2 : ℚ} {color : ℕ} {j : ℕ}
    (hW : W < 4294967296) (hH : H < 4294967296) (L : List (ℤ × ℤ)) :
    ∀ r : Renderer, r.width = W → r.height = H →
    (∀ p ∈ L, 0 ≤ p.1 ∧ p.1 < (H : ℤ) ∧ 0 ≤ p.2 ∧ p.2 < (W : ℤ)) →
    (∀ p ∈ L, (p.1 * (W : ℤ) + p.2).toNat ≠ j) →
    ∃ r₂, List.foldlM (drawTrianglePixel v0 v1 v2 z0 z1 z2 color) r L = some r₂ ∧
      r₂.width = W ∧ r₂.height = H ∧
      r₂.z_buffer j = r.z_buffer j ∧ r₂.framebuffer j = r.framebuffer j := by
  induction L with
  | nil => exact fun r h1 h2 _ _ => ⟨r, rfl, h1, h2, rfl, rfl⟩
  | cons p t ih =>
      intro r hrW hrH hsafe hmiss
      obtain ⟨h1, h2, h3, h4⟩ := hsafe p (List.mem_cons_self _ _)
      by_cases hin : insideB v0 v1 v2 p = true
      · rw [List.foldlM_cons, drawTrianglePixel_inside hin (by omega) (by omega) h1
          (by rw [hrH]; exact h2) h3 (by rw [hrW]; exact h4)]
        have hw1 := pixUpdate_width v0 v1 v2 z0 z1 z2 color r p
        have hoth := @pixUpdate_other v0 v1 v2 z0 z1 z2 color r p j
          (by rw [hrW]; exact Ne.symm (hmiss p (List.mem_cons_self _ _)))
        obtain ⟨r₂, hfold, hww, hhh, hz, hf⟩ := ih (pixUpdate v0 v1 v2 z0 z1 z2 color r p)
          (hw1.1.trans hrW) (hw1.2.trans hrH)
          (fun q hq => hsafe q (List.mem_cons_of_mem _ hq))
          (fun q hq => hmiss q (List.mem_cons_of_mem _ hq))
        refine ⟨r₂, by simpa using hfold, hww, hhh, ?_, ?_⟩
        · rw [hz, hoth.1]
        · rw [hf, hoth.2]
      · rw [List.foldlM_cons,
          drawTrianglePixel_not_inside (Bool.not_eq_true _ ▸ hin : insideB v0 v1 v2 p = false)]
        obtain ⟨r₂, hfold, hww, hhh, hz, hf⟩ := ih r hrW hrH
          (fun q hq => hsafe q (List.mem_cons_of_mem _ hq))
          (fun q hq => hmiss q (List.mem_cons_of_mem _ hq))
        exact ⟨r₂, by simpa using hfold, hww, hhh, hz, hf⟩

/-- Full characterization of one `draw_triangle` call at an on-screen inside
target pixel, for a triangle whose whole bounding box is on-screen: the call
succeeds and the final buffer contents at the target's index are decided by
the depth test against the incoming depth-buffer value there. -/
theorem draw_triangle_characterize {v0 v1 v2 : Vec2f} {z0 z1 z2 : ℚ} {color : ℕ}
    {r : Renderer} {py px : ℕ}
    (hW : r.width < 4294967296) (hH : r.height < 4294967296)
    (hbb : 0 ≤ bboxMinX v0 v1 v2 ∧ bboxMaxX v0 v1 v2 < (r.width : ℤ) ∧
           0 ≤ bboxMinY v0 v1 v2 ∧ bboxMaxY v0 v1 v2 < (r.height : ℤ))
    (hmem : bboxMinY v0 v1 v2 ≤ (py : ℤ) ∧ (py : ℤ) ≤ bboxMaxY v0 v1 v2 ∧
            bboxMinX v0 v1 v2 ≤ (px : ℤ) ∧ (px : ℤ) ≤ bboxMaxX v0 v1 v2)
    (hin : insideB v0 v1 v2 ((py : ℤ), (px : ℤ)) = true) :
    ∃ r₂, draw_triangle r v0 v1 v2 z0 z1 z2 color = some r₂ ∧
      r₂.width = r.width ∧ r₂.height = r.height ∧
      r₂.z_buffer (py * r.width + px) =
        (if EFloat.blt (interpDepth v0 v1 v2 z0 z1 z2 ((py : ℤ), (px : ℤ)))
            (r.z_buffer (py * r.width + px)) = true
         then interpDepth v0 v1 v2 z0 z1 z2 ((py : ℤ), (px : ℤ))
         else r.z_buffer (py * r.width + px)) ∧
      r₂.framebuffer (py * r.width + px) =
        (if EFloat.blt (interpDepth v0 v1 v2 z0 z1 z2 ((py : ℤ), (px : ℤ)))
            (r.z_buffer (py * r.width + px)) = true
         then color
         else r.framebuffer (py * r.width + px)) := by
  obtain ⟨hbb1, hbb2, hbb3, hbb4⟩ := hbb
  have hsafeAll : ∀ p ∈ bboxList (bboxMinY v0 v1 v2) (bboxMaxY v0 v1 v2)
      (bboxMinX v0 v1 v2) (bboxMaxX v0 v1 v2),
      0 ≤ p.1 ∧ p.1 < (r.height : ℤ) ∧ 0 ≤ p.2 ∧ p.2 < (r.width : ℤ) := by
    intro p hp
    have := mem_bboxList.1 hp
    exact ⟨by omega, by omega, by omega, by omega⟩
  have hpmem : ((py : ℤ), (px : ℤ)) ∈ bboxList (bboxMinY v0 v1 v2) (bboxMaxY v0 v1 v2)
      (bboxMinX v0 v1 v2) (bboxMaxX v0 v1 v2) := by
    exact mem_bboxList.2 ⟨hmem.1, hmem.2.1, hmem.2.2.1, hmem.2.2.2⟩
  obtain ⟨s, t, hsplit⟩ := List.append_of_mem hpmem
  have hnodup := bboxList_nodup (bboxMinY v0 v1 v2) (bboxMaxY v0 v1 v2)
    (bboxMinX v0 v1 v2) (bboxMaxX v0 v1 v2)
  rw [hsplit] at hnodup
  have hnotins : ((py : ℤ), (px : ℤ)) ∉ s := by
    intro hmem2
    exact (List.disjoint_of_nodup_append hnodup) hmem2 (List.mem_cons_self _ _)
  have hnotint : ((py : ℤ), (px : ℤ)) ∉ t :=
    fun hmem2 => ((List.nodup_append.1 hnodup).2.1.not_mem) hmem2
  have hidxT : (((py : ℤ)) * ((r.width : ℕ) : ℤ) + ((px : ℤ))).toNat = py * r.width + px := by
    have : ((py : ℤ)) * ((r.width : ℕ) : ℤ) + ((px : ℤ)) = ((py * r.width + px : ℕ) : ℤ) := by
      push_cast
      ring
    rw [this]
    exact Int.toNat_natCast _
  obtain ⟨hp1, hp2, hp3, hp4⟩ := hsafeAll _ hpmem
  have hmiss : ∀ q ∈ s ++ t,
      (q.1 * (r.width : ℤ) + q.2).toNat ≠ py * r.width + px := by
    intro q hq heqt
    have hqmem : q ∈ bboxList (bboxMinY v0 v1 v2) (bboxMaxY v0 v1 v2)
        (bboxMinX v0 v1 v2) (bboxMaxX v0 v1 v2) := by
      rw [hsplit]
      rcases List.mem_append.1 hq with h | h
      · exact List.mem_append.2 (Or.inl h)
      · exact List.mem_append.2 (Or.inr (List.mem_cons_of_mem _ h))
    obtain ⟨hq1, hq2, hq3, hq4⟩ := hsafeAll q hqmem
    have heq : q.1 * (r.width : ℤ) + q.2 = (py : ℤ) * (r.width : ℤ) + (px : ℤ) := by
      have hnn : 0 ≤ q.1 * (r.width : ℤ) + q.2 := by positivity
      omega
    obtain ⟨he1, he2⟩ := pixIndex_inj hq1 hq3 hq4 hp1 hp3 hp4 heq
    have hqeq : q = ((py : ℤ), (px : ℤ)) := by
      obtain ⟨qy, qx⟩ := q
      simp only [Prod.fst, Prod.snd] at he1 he2
      rw [he1, he2]
    rw [hqeq] at hq
    rcases List.mem_append.1 hq with h | h
    · exact hnotins h
    · exact hnotint h
  have hsafeS : ∀ q ∈ s, 0 ≤ q.1 ∧ q.1 < (r.height : ℤ) ∧ 0 ≤ q.2 ∧ q.2 < (r.width : ℤ) := by
    intro q hq
    refine hsafeAll q ?_
    rw [hsplit]
    exact List.mem_append.2 (Or.inl hq)
  have hsafeT : ∀ q ∈ t, 0 ≤ q.1 ∧ q.1 < (r.height : ℤ) ∧ 0 ≤ q.2 ∧ q.2 < (r.width : ℤ) := by
    intro q hq
    refine hsafeAll q ?_
    rw [hsplit]
    exact List.mem_append.2 (Or.inr (List.mem_cons_of_mem _ hq))
  obtain ⟨r₁, hfold1, hw1, hh1, hz1, hf1⟩ := fold_frame hW hH s r rfl rfl hsafeS
    (fun q hq => hmiss q (List.mem_append.2 (Or.inl hq)))
  have hstep := @drawTrianglePixel_inside v0 v1 v2 z0 z1 z2 color r₁
    ((py : ℤ), (px : ℤ)) hin (by rw [hw1]; exact hW) (by rw [hh1]; exact hH)
    (by positivity) (by rw [hh1]; exact hp2) (by positivity) (by rw [hw1]; exact hp4)
  set rP := pixUpdate v0 v1 v2 z0 z1 z2 color r₁ ((py : ℤ), (px : ℤ)) with hrP
  have hwP := pixUpdate_width v0 v1 v2 z0 z1 z2 color r₁ ((py : ℤ), (px : ℤ))
  have hidxP : (((py : ℤ)) * ((r₁.width : ℕ) : ℤ) + ((px : ℤ))).toNat = py * r.width + px := by
    rw [hw1]
    exact hidxT
  obtain ⟨r₂, hfold2, hw2, hh2, hz2, hf2⟩ := fold_frame hW hH t rP
    (hwP.1.trans hw1) (hwP.2.trans hh1)
    (fun q hq => hsafeT q hq)
    (fun q hq => hmiss q (List.mem_append.2 (Or.inr hq)))
  have hself := @pixUpdate_self v0 v1 v2 z0 z1 z2 color r₁ ((py : ℤ), (px : ℤ))
  rw [hidxP] at hself
  refine ⟨r₂, ?_, hw2, hh2, ?_, ?_⟩
  · rw [draw_triangle, hsplit, foldlM_append_option, hfold1, Option.some_bind,
      List.foldlM_cons, hstep]
    simpa using hfold2
  · rw [hz2, hself.1, hz1]
  · rw [hf2, hself.2, hf1, hz1]

/-- With an exactly-zero barycentric denominator, `1.0 / 0.0 = +inf` makes
each weight `+inf`, `-inf` or NaN, and in every combination at least one of
the three `>= 0.0` comparisons is false (a NaN comparison is always false,
and when both `u` and `v` are `+inf` then `w = 1 - u - v = -inf`), so the
inside test rejects the pixel. -/
theorem uvw_test_false_of_zero_denom (nu nv : ℚ) :
    (EFloat.ble (.fin 0) (EFloat.mul (.fin nu) (EFloat.div (.fin 1) (.fin 0))) &&
     EFloat.ble (.fin 0) (EFloat.mul (.fin nv) (EFloat.div (.fin 1) (.fin 0))) &&
     EFloat.ble (.fin 0)
       (EFloat.sub (EFloat.sub (.fin 1)
         (EFloat.mul (.fin nu) (EFloat.div (.fin 1) (.fin 0))))
         (EFloat.mul (.fin nv) (EFloat.div (.fin 1) (.fin 0))))) = false := by
  have hdiv : EFloat.div (.fin 1) (.fin 0) = .inf := by
    norm_num [EFloat.div]
  rw [hdiv]
  rcases lt_trichotomy nu 0 with h | h | h
  · have hu : EFloat.mul (.fin nu) .inf = .ninf := by
      simp [EFloat.mul, h.ne, not_lt.2 h.le]
    rw [hu]
    simp [EFloat.ble]
  · have hu : EFloat.mul (.fin nu) .inf = .nan := by
      simp [EFloat.mul, h]
    rw [hu]
    simp [EFloat.ble]
  · have hu : EFloat.mul (.fin nu) .inf = .inf := by
      simp [EFloat.mul, h.ne.symm, h]
    rw [hu]
    rcases lt_trichotomy nv 0 with h2 | h2 | h2
    · have hv : EFloat.mul (.fin nv) .inf = .ninf := by
        simp [EFloat.mul, h2.ne, not_lt.2 h2.le]
      rw [hv]
      simp [EFloat.ble]
    · have hv : EFloat.mul (.fin nv) .inf = .nan := by
        simp [EFloat.mul, h2]
      rw [hv]
      simp [EFloat.ble]
    · have hv : EFloat.mul (.fin nv) .inf = .inf := by
        simp [EFloat.mul, h2.ne.symm, h2]
      rw [hv]
      simp [EFloat.ble, EFloat.sub, EFloat.neg, EFloat.add]

/-- A zero barycentric denominator makes the inside test fail at every
candidate pixel. -/
theorem insideB_false_of_denom_zero {v0 v1 v2 : Vec2f} (h : baryDenom v0 v1 v2 = 0)
    (yx : ℤ × ℤ) : insideB v0 v1 v2 yx = false := by
  have h' : (Vec2f.mk (v2.x - v0.x) (v2.y - v0.y)).dot (Vec2f.mk (v2.x - v0.x) (v2.y - v0.y)) *
      (Vec2f.mk (v1.x - v0.x) (v1.y - v0.y)).dot (Vec2f.mk (v1.x - v0.x) (v1.y - v0.y)) -
      (Vec2f.mk (v1.x - v0.x) (v1.y - v0.y)).dot (Vec2f.mk (v2.x - v0.x) (v2.y - v0.y)) *
      (Vec2f.mk (v1.x - v0.x) (v1.y - v0.y)).dot (Vec2f.mk (v2.x - v0.x) (v2.y - v0.y)) = 0 := h
  simp only [insideB, barycentric_coordinates, h']
  exact uvw_test_false_of_zero_denom _ _

/-- Folding the loop body over any pixel list is a no-op when every inside
test fails. -/
theorem foldlM_skip_all {v0 v1 v2 : Vec2f} {z0 z1 z2 : ℚ} {color : ℕ}
    (h : ∀ yx, insideB v0 v1 v2 yx = false) (L : List (ℤ × ℤ)) (r : Renderer) :
    List.foldlM (drawTrianglePixel v0 v1 v2 z0 z1 z2 color) r L = some r := by
  induction L with
  | nil => rfl
  | cons p t ih => simp [List.foldlM_cons, drawTrianglePixel_not_inside (h p), ih]

theorem EFloat.blt_inf_of_blt {x y : EFloat} (h : EFloat.blt x y = true) :
    EFloat.blt x .inf = true := by
  cases x <;> cases y <;> simp_all [EFloat.blt]

theorem EFloat.blt_asymm {x y : EFloat} (h : EFloat.blt x y = true) :
    EFloat.blt y x = false := by
  cases x <;> cases y <;> simp_all [EFloat.blt] <;> linarith

theorem EFloat.ne_nan_of_blt_right {x y : EFloat} (h : EFloat.blt x y = true) :
    y ≠ .nan := by
  cases x <;> cases y <;> simp_all [EFloat.blt]

theorem EFloat.eq_inf_of_not_blt_inf {x : EFloat} (h1 : EFloat.blt x .inf = false)
    (h2 : x ≠ .nan) : x = .inf := by
  cases x <;> simp_all [EFloat.blt]

set_option maxRecDepth 8000 in
/-- C1: the claim that every framebuffer and depth-buffer access of the
drawing operations stays inside `[0, width*height)` and that out-of-bounds
pixel writes are silently ignored FAILS for `draw_triangle`: `set_pixel` and
`draw_line` are bounds-checked, but `draw_triangle` reads
`z_buffer[(y * width + x) as usize]` with no bounds check (src/renderer.rs
line 69), so a triangle whose bounding box leaves the 2x2 screen panics with
an index out of range (modelled by `none`): here pixel `(x, y) = (2, 1)` is
inside the triangle `(0,0)-(3,0)-(0,3)` and has index `1 * 2 + 2 = 4 ≥ 4`. -/
theorem C1_draw_triangle_depth_buffer_overrun :
    draw_triangle (Renderer.new 2 2) (Vec2f.mk 0 0) (Vec2f.mk 3 0) (Vec2f.mk 0 3)
      0 0 0 7 = none := by
  with_unfolding_all rfl

/-- C2 (amended): `draw_triangle` contains no explicit guard on the
barycentric denominator, but for every triangle whose denominator
`dot00 * dot11 - dot01 * dot01` is EXACTLY zero the special-value arithmetic
(`1.0 / 0.0 = +inf`, `0 * inf = NaN`, `1 - inf - inf = -inf`) makes the
inside test `u >= 0 && v >= 0 && w >= 0` fail at every candidate pixel, so
the triangle is skipped as a whole and nothing -- in particular no NaN or
infinity -- is written to the framebuffer or the depth buffer.  (Triangles
with a small but nonzero denominator are NOT skipped; see the
counterexample.) -/
theorem C2_zero_denominator_triangle_skipped (r : Renderer) (v0 v1 v2 : Vec2f)
    (z0 z1 z2 : ℚ) (color : ℕ) (h : baryDenom v0 v1 v2 = 0) :
    draw_triangle r v0 v1 v2 z0 z1 z2 color = some r :=
  foldlM_skip_all (insideB_false_of_denom_zero h) _ r

/-- Witness for C2: a fully degenerate triangle (all three vertices equal)
has denominator zero and `draw_triangle` leaves the renderer untouched. -/
theorem C2_zero_denominator_triangle_skipped_witness :
    baryDenom (Vec2f.mk 1 1) (Vec2f.mk 1 1) (Vec2f.mk 1 1) = 0 ∧
    draw_triangle (Renderer.new 2 2) (Vec2f.mk 1 1) (Vec2f.mk 1 1) (Vec2f.mk 1 1)
      3 3 3 9 = some (Renderer.new 2 2) :=
  ⟨by with_unfolding_all decide,
   C2_zero_denominator_triangle_skipped (Renderer.new 2 2) (Vec2f.mk 1 1) (Vec2f.mk 1 1)
     (Vec2f.mk 1 1) 3 3 3 9 (by with_unfolding_all decide)⟩

set_option maxRecDepth 8000 in
/-- C2 counterexample: the claim says a triangle whose barycentric
denominator is zero OR NEAR ZERO is detected and skipped, but the code has
no guard at all: the sliver triangle `(0,0)-(2,0)-(4,1/1000)` has denominator
`1/250000` (near zero; its area is `1/1000`), and `draw_triangle` still
writes its color into framebuffer pixel `(1, 0)` instead of skipping the
triangle. -/
theorem C2_near_zero_denominator_not_skipped :
    baryDenom (Vec2f.mk 0 0) (Vec2f.mk 2 0) (Vec2f.mk 4 (1/1000)) = 1/250000 ∧
    (1/250000 : ℚ) ≠ 0 ∧
    (draw_triangle (Renderer.new 8 2) (Vec2f.mk 0 0) (Vec2f.mk 2 0)
        (Vec2f.mk 4 (1/1000)) 1 1 1 123).map (fun r2 => r2.framebuffer 1) =
      some 123 := by
  refine ⟨by with_unfolding_all rfl, by norm_num, ?_⟩
  obtain ⟨r₂, hdraw, _, _, _, hfb⟩ := @draw_triangle_characterize
    (Vec2f.mk 0 0) (Vec2f.mk 2 0) (Vec2f.mk 4 (1/1000)) 1 1 1 123
    (Renderer.new 8 2) 0 1
    (by decide) (by decide)
    (by refine ⟨?_, ?_, ?_, ?_⟩ <;> with_unfolding_all decide)
    (by refine ⟨?_, ?_, ?_, ?_⟩ <;> with_unfolding_all decide)
    (by with_unfolding_all decide)
  rw [hdraw]
  simp only [Nat.cast_zero, Nat.cast_one] at hfb
  rw [if_pos (by with_unfolding_all decide :
    EFloat.blt (interpDepth (Vec2f.mk 0 0) (Vec2f.mk 2 0) (Vec2f.mk 4 (1/1000)) 1 1 1
      ((0 : ℤ), (1 : ℤ)))
      ((Renderer.new 8 2).z_buffer (0 * (Renderer.new 8 2).width + 1)) = true)] at hfb
  simpa using hfb

/-- C7: after a clear, for two triangles drawn on-screen and a pixel inside
both where the second triangle's interpolated depth is strictly smaller than
the first's, the overlap pixel ends with the nearer (second) triangle's
color, and drawing the two triangles in the reverse order produces the same
framebuffer value at that pixel: the depth test is order-independent. -/
theorem C7_depth_test_order_independent
    (r : Renderer) (c0 : ℕ)
    (a0 a1 a2 b0 b1 b2 : Vec2f) (za0 za1 za2 zb0 zb1 zb2 : ℚ) (ca cb : ℕ)
    (py px : ℕ)
    (hW : r.width < 4294967296) (hH : r.height < 4294967296)
    (hbbA : 0 ≤ bboxMinX a0 a1 a2 ∧ bboxMaxX a0 a1 a2 < (r.width : ℤ) ∧
            0 ≤ bboxMinY a0 a1 a2 ∧ bboxMaxY a0 a1 a2 < (r.height : ℤ))
    (hbbB : 0 ≤ bboxMinX b0 b1 b2 ∧ bboxMaxX b0 b1 b2 < (r.width : ℤ) ∧
            0 ≤ bboxMinY b0 b1 b2 ∧ bboxMaxY b0 b1 b2 < (r.height : ℤ))
    (hmemA : bboxMinY a0 a1 a2 ≤ (py : ℤ) ∧ (py : ℤ) ≤ bboxMaxY a0 a1 a2 ∧
             bboxMinX a0 a1 a2 ≤ (px : ℤ) ∧ (px : ℤ) ≤ bboxMaxX a0 a1 a2)
    (hmemB : bboxMinY b0 b1 b2 ≤ (py : ℤ) ∧ (py : ℤ) ≤ bboxMaxY b0 b1 b2 ∧
             bboxMinX b0 b1 b2 ≤ (px : ℤ) ∧ (px : ℤ) ≤ bboxMaxX b0 b1 b2)
    (hinA : insideB a0 a1 a2 ((py : ℤ), (px : ℤ)) = true)
    (hinB : insideB b0 b1 b2 ((py : ℤ), (px : ℤ)) = true)
    (hnearer : EFloat.blt (interpDepth b0 b1 b2 zb0 zb1 zb2 ((py : ℤ), (px : ℤ)))
      (interpDepth a0 a1 a2 za0 za1 za2 ((py : ℤ), (px : ℤ))) = true) :
    ((draw_triangle (r.clear c0) a0 a1 a2 za0 za1 za2 ca).bind
        (fun r1 => draw_triangle r1 b0 b1 b2 zb0 zb1 zb2 cb)).map
      (fun r2 => r2.framebuffer (py * r.width + px)) = some cb ∧
    ((draw_triangle (r.clear c0) b0 b1 b2 zb0 zb1 zb2 cb).bind
        (fun r1 => draw_triangle r1 a0 a1 a2 za0 za1 za2 ca)).map
      (fun r2 => r2.framebuffer (py * r.width + px)) = some cb := by
  set dA := interpDepth a0 a1 a2 za0 za1 za2 ((py : ℤ), (px : ℤ)) with hdA
  set dB := interpDepth b0 b1 b2 zb0 zb1 zb2 ((py : ℤ), (px : ℤ)) with hdB
  have hBinf : EFloat.blt dB .inf = true := EFloat.blt_inf_of_blt hnearer
  have hclear_z : ∀ j, (r.clear c0).z_buffer j = .inf := fun _ => rfl
  have hclear_w : (r.clear c0).width = r.width := rfl
  have hclear_h : (r.clear c0).height = r.height := rfl
  constructor
  · -- far triangle A first, then nearer triangle B
    obtain ⟨r1, hdraw1, hw1, hh1, hz1, _⟩ := @draw_triangle_characterize
      a0 a1 a2 za0 za1 za2 ca (r.clear c0) py px
      hW hH hbbA hmemA hinA
    rw [hclear_z] at hz1
    obtain ⟨r2, hdraw2, _, _, _, hf2⟩ := @draw_triangle_characterize
      b0 b1 b2 zb0 zb1 zb2 cb r1 py px
      (by rw [hw1]; exact hW) (by rw [hh1]; exact hH)
      (by rw [hw1, hh1]; exact hbbB) hmemB hinB
    rw [hdraw1, Option.some_bind, hdraw2, Option.map_some']
    have hz1idx : r1.z_buffer (py * r1.width + px) = (if EFloat.blt dA .inf = true
        then dA else .inf) := by
      rw [hw1]
      exact hz1
    have hcond : EFloat.blt dB (r1.z_buffer (py * r1.width + px)) = true := by
      rw [hz1idx]
      cases hAinf : EFloat.blt dA .inf with
      | true => simpa [hAinf] using hnearer
      | false =>
          have : dA = .inf := EFloat.eq_inf_of_not_blt_inf hAinf
            (EFloat.ne_nan_of_blt_right hnearer)
          simp [hAinf, this, hBinf]
    rw [hcond] at hf2
    have hidxeq : py * r1.width + px = py * r.width + px := by
      rw [hw1]
      rfl
    rw [hidxeq] at hf2
    simp [hf2]
  · -- nearer triangle B first, then far triangle A
    obtain ⟨r1, hdraw1, hw1, hh1, hz1, hf1⟩ := @draw_triangle_characterize
      b0 b1 b2 zb0 zb1 zb2 cb (r.clear c0) py px
      hW hH hbbB hmemB hinB
    rw [hclear_z] at hz1 hf1
    rw [hBinf] at hz1 hf1
    obtain ⟨r2, hdraw2, _, _, _, hf2⟩ := @draw_triangle_characterize
      a0 a1 a2 za0 za1 za2 ca r1 py px
      (by rw [hw1]; exact hW) (by rw [hh1]; exact hH)
      (by rw [hw1, hh1]; exact hbbA) hmemA hinA
    rw [hdraw1, Option.some_bind, hdraw2, Option.map_some']
    have hcond : EFloat.blt dA (r1.z_buffer (py * r1.width + px)) = false := by
      rw [hw1, hz1]
      exact EFloat.blt_asymm hnearer
    rw [hcond] at hf2
    have hidxeq : py * r1.width + px = py * r.width + px := by
      rw [hw1]
      rfl
    rw [hidxeq] at hf2
    simp only [Bool.false_eq_true, if_false] at hf2
    have hf1n : r1.framebuffer (py * r.width + px) = cb := by
      rw [show py * r.width + px = py * (r.clear c0).width + px from rfl, hf1]
      simp
    rw [hf2, hf1n]

/-- Model of the unbounded `loop` of `Renderer::draw_line` (src/renderer.rs
lines 233-248) as fuel-bounded recursion: `none` means the fuel ran out
before the loop reached its `break`.  Each iteration plots the current pixel
(bounds-checked `set_pixel` on the `u32`-cast coordinates), breaks when
`(x, y) = (x1, y1)`, and otherwise performs the two Bresenham error-term
steps (both read the same `e2 = 2 * err` computed before either update). -/
def drawLineLoop (x1 y1 sx sy dx dy : ℤ) (color : ℕ) :
    ℕ → Renderer → ℤ → ℤ → ℤ → Option Renderer
  | 0, _, _, _, _ => none
  | fuel + 1, r, x, y, err =>
      let r2 := r.set_pixel (u32ofInt x) (u32ofInt y) color
      if x = x1 ∧ y = y1 then some r2
      else
        let e2 := 2 * err
        let err1 := if e2 > -dy then err - dy else err
        let x2 := if e2 > -dy then x + sx else x
        let err2 := if e2 < dx then err1 + dx else err1
        let y2 := if e2 < dx then y + sy else y
        drawLineLoop x1 y1 sx sy dx dy color fuel r2 x2 y2 err2

/-- Model of `Renderer::draw_line` (src/renderer.rs lines 222-249): Bresenham
line stepping.  The Rust `loop` is unbounded; the model gives it
`|dx| + |dy| + 1` iterations of fuel, and theorem C10 proves the loop always
breaks within that many, so the fuel is never exhausted. -/
def draw_line (r : Renderer) (x0 y0 x1 y1 : ℤ) (color : ℕ) : Option Renderer :=
  let dx := |x1 - x0|
  let dy := |y1 - y0|
  let sx : ℤ := if x0 < x1 then 1 else -1
  let sy : ℤ := if y0 < y1 then 1 else -1
  let err := dx - dy
  drawLineLoop x1 y1 sx sy dx dy color (dx + dy + 1).toNat r x0 y0 err

/-- Bresenham loop invariant and termination: from a state that has taken
`a ≤ dx` x-steps and `b ≤ dy` y-steps (so `x = x0 + sx*a`, `y = y0 + sy*b`,
`err = dx - dy - a*dy + b*dx`), the loop reaches its break within
`(dx - a) + (dy - b) + 1` iterations: each non-final iteration takes at
least one step, and no step overshoots its axis (when `a = dx` the x-step
condition `e2 > -dy` is provably false, and symmetrically for `b = dy`). -/
theorem drawLineLoop_terminates (x0 y0 x1 y1 sx sy dx dy : ℤ) (color : ℕ)
    (hdx : 0 ≤ dx) (hdy : 0 ≤ dy)
    (hsx : sx = 1 ∨ sx = -1) (hsy : sy = 1 ∨ sy = -1)
    (hx1 : x1 = x0 + sx * dx) (hy1 : y1 = y0 + sy * dy) :
    ∀ (fuel : ℕ) (a b : ℤ) (r : Renderer), 0 ≤ a → a ≤ dx → 0 ≤ b → b ≤ dy →
      (dx - a) + (dy - b) < fuel →
      ∃ r2, drawLineLoop x1 y1 sx sy dx dy color fuel r (x0 + sx * a) (y0 + sy * b)
        (dx - dy - a * dy + b * dx) = some r2 := by
  intro fuel
  induction fuel with
  | zero =>
      intro a b r _ _ _ _ hf
      omega
  | succ n ih =>
      intro a b r ha0 ha1 hb0 hb1 hf
      simp only [drawLineLoop]
      have hxiff : (x0 + sx * a = x1) ↔ a = dx := by
        rcases hsx with h | h <;> rw [h] at hx1 ⊢ <;> omega
      have hyiff : (y0 + sy * b = y1) ↔ b = dy := by
        rcases hsy with h | h <;> rw [h] at hy1 ⊢ <;> omega
      by_cases hdone : x0 + sx * a = x1 ∧ y0 + sy * b = y1
      · rw [if_pos hdone]
        exact ⟨_, rfl⟩
      · rw [if_neg hdone]
        have hne : ¬(a = dx ∧ b = dy) := by
          intro ⟨h1, h2⟩
          exact hdone ⟨hxiff.2 h1, hyiff.2 h2⟩
        by_cases c1 : 2 * (dx - dy - a * dy + b * dx) > -dy
        · -- the loop takes an x-step; no overshoot: a < dx
          have haS : a < dx := by
            rcases eq_or_lt_of_le ha1 with h | h
            · exfalso
              have hb' : b + 1 ≤ dy := by
                have : ¬(b = dy) := fun hbd => hne ⟨h, hbd⟩
                omega
              subst h
              nlinarith [mul_nonneg (show (0 : ℤ) ≤ dy - (b + 1) by omega) hdx]
            · exact h
          by_cases c2 : 2 * (dx - dy - a * dy + b * dx) < dx
          · -- x-step and y-step together; no y overshoot: b < dy
            have hbS : b < dy := by
              rcases eq_or_lt_of_le hb1 with h | h
              · exfalso
                subst h
                nlinarith [mul_nonneg (show (0 : ℤ) ≤ dx - (a + 1) by omega) hdy]
              · exact h
            simp only [if_pos c1, if_pos c2]
            rw [show x0 + sx * a + sx = x0 + sx * (a + 1) from by ring,
              show y0 + sy * b + sy = y0 + sy * (b + 1) from by ring,
              show dx - dy - a * dy + b * dx - dy + dx =
                dx - dy - (a + 1) * dy + (b + 1) * dx from by ring]
            exact ih (a + 1) (b + 1) _ (by omega) (by omega) (by omega) (by omega) (by omega)
          · simp only [if_pos c1, if_neg c2]
            rw [show x0 + sx * a + sx = x0 + sx * (a + 1) from by ring,
              show dx - dy - a * dy + b * dx - dy =
                dx - dy - (a + 1) * dy + b * dx from by ring]
            exact ih (a + 1) b _ (by omega) (by omega) (by omega) (by omega) (by omega)
        · by_cases c2 : 2 * (dx - dy - a * dy + b * dx) < dx
          · -- y-step only; no overshoot: b < dy
            have hbS : b < dy := by
              rcases eq_or_lt_of_le hb1 with h | h
              · exfalso
                have ha' : a + 1 ≤ dx := by
                  have : ¬(a = dx) := fun had => hne ⟨had, h⟩
                  omega
                subst h
                nlinarith [mul_nonneg (show (0 : ℤ) ≤ dx - (a + 1) by omega) hdy]
              · exact h
            simp only [if_neg c1, if_pos c2]
            rw [show y0 + sy * b + sy = y0 + sy * (b + 1) from by ring,
              show dx - dy - a * dy + b * dx + dx =
                dx - dy - a * dy + (b + 1) * dx from by ring]
            exact ih a (b + 1) _ (by omega) (by omega) (by omega) (by omega) (by omega)
          · -- neither step: only possible when dx = dy = 0, but then the
            -- loop already broke
            exfalso
            have h1 : 2 * (dx - dy - a * dy + b * dx) ≤ -dy := not_lt.1 c1
            have h2 : dx ≤ 2 * (dx - dy - a * dy + b * dx) := not_lt.1 c2
            have h3 : dx ≤ -dy := le_trans h2 h1
            exact hne ⟨by omega, by omega⟩

/-- C10: `draw_line` terminates for every pair of integer endpoints and every
color: the Bresenham stepping loop reaches `(x1, y1)` within
`|dx| + |dy| + 1` iterations (the model's fuel), so it never exhausts the
fuel (never returns `none`), from any renderer state. -/
theorem C10_draw_line_terminates (r : Renderer) (x0 y0 x1 y1 : ℤ) (color : ℕ) :
    ∃ r2, draw_line r x0 y0 x1 y1 color = some r2 := by
  have hx1 : x1 = x0 + (if x0 < x1 then (1 : ℤ) else -1) * |x1 - x0| := by
    rcases lt_or_le x0 x1 with h | h
    · rw [if_pos h, abs_of_nonneg (by omega : (0 : ℤ) ≤ x1 - x0)]
      ring
    · rw [if_neg (not_lt.2 h), abs_of_nonpos (by omega : x1 - x0 ≤ 0)]
      ring
  have hy1 : y1 = y0 + (if y0 < y1 then (1 : ℤ) else -1) * |y1 - y0| := by
    rcases lt_or_le y0 y1 with h | h
    · rw [if_pos h, abs_of_nonneg (by omega : (0 : ℤ) ≤ y1 - y0)]
      ring
    · rw [if_neg (not_lt.2 h), abs_of_nonpos (by omega : y1 - y0 ≤ 0)]
      ring
  have hdx : (0 : ℤ) ≤ |x1 - x0| := abs_nonneg _
  have hdy : (0 : ℤ) ≤ |y1 - y0| := abs_nonneg _
  obtain ⟨r2, h2⟩ := drawLineLoop_terminates x0 y0 x1 y1
    (if x0 < x1 then (1 : ℤ) else -1) (if y0 < y1 then (1 : ℤ) else -1)
    |x1 - x0| |y1 - y0| color hdx hdy
    (by split <;> simp) (by split <;> simp) hx1 hy1
    (|x1 - x0| + |y1 - y0| + 1).toNat 0 0 r le_rfl hdx le_rfl hdy (by omega)
  refine ⟨r2, ?_⟩
  simp only [draw_line]
  simpa using h2

/-- Witness for C7 at a concrete instance: two copies of the triangle
`(0,0)-(3,0)-(0,3)` on a 4x4 screen, the first at depth 5 with color 1, the
second at depth 1 with color 2; pixel `(1,1)` is inside both, and both draw
orders leave color 2 there. -/
theorem C7_depth_test_order_independent_witness :
    ((draw_triangle ((Renderer.new 4 4).clear 17) (Vec2f.mk 0 0) (Vec2f.mk 3 0)
        (Vec2f.mk 0 3) 5 5 5 1).bind
      (fun r1 => draw_triangle r1 (Vec2f.mk 0 0) (Vec2f.mk 3 0) (Vec2f.mk 0 3) 1 1 1 2)).map
        (fun r2 => r2.framebuffer (1 * (Renderer.new 4 4).width + 1)) = some 2 ∧
    ((draw_triangle ((Renderer.new 4 4).clear 17) (Vec2f.mk 0 0) (Vec2f.mk 3 0)
        (Vec2f.mk 0 3) 1 1 1 2).bind
      (fun r1 => draw_triangle r1 (Vec2f.mk 0 0) (Vec2f.mk 3 0) (Vec2f.mk 0 3) 5 5 5 1)).map
        (fun r2 => r2.framebuffer (1 * (Renderer.new 4 4).width + 1)) = some 2 :=
  C7_depth_test_order_independent (Renderer.new 4 4) 17
    (Vec2f.mk 0 0) (Vec2f.mk 3 0) (Vec2f.mk 0 3)
    (Vec2f.mk 0 0) (Vec2f.mk 3 0) (Vec2f.mk 0 3)
    5 5 5 1 1 1 1 2 1 1
    (by with_unfolding_all decide) (by with_unfolding_all decide)
    (by refine ⟨?_, ?_, ?_, ?_⟩ <;> with_unfolding_all decide)
    (by refine ⟨?_, ?_, ?_, ?_⟩ <;> with_unfolding_all decide)
    (by refine ⟨?_, ?_, ?_, ?_⟩ <;> with_unfolding_all decide)
    (by refine ⟨?_, ?_, ?_, ?_⟩ <;> with_unfolding_all decide)
    (by with_unfolding_all decide) (by with_unfolding_all decide)
    (by with_unfolding_all decide)

/-! Math kernel: `Mat4x4` (src/math/matrix.rs), modelled over exact
rationals.  The source stores 16 `f32` values row-major with
`get(row, col) = m[row * 4 + col]`; the model is the function sending
`(row, col)` to the exact value, i.e. a Mathlib `Matrix (Fin 4) (Fin 4) ℚ`. -/

/-- Model of `Mat4x4` (src/math/matrix.rs lines 5-8). -/
abbrev Mat4x4 := Matrix (Fin 4) (Fin 4) ℚ

/-- Model of `Mat4x4::multiply` (src/math/matrix.rs lines 52-67): the triple
loop computing `sum over k of self.get(row, k) * other.get(k, col)`. -/
def Mat4x4.multiply (A B : Mat4x4) : Mat4x4 :=
  fun row col => ∑ k : Fin 4, A row k * B k col

/-- A `Fin 4` row/column index viewed as a column of the 4x8 augmented
matrix (left half). -/
def col4 (c : Fin 4) : Fin 8 := ⟨(c : ℕ), by omega⟩

/-- A `Fin 4` column index viewed as a column of the right half of the 4x8
augmented matrix. -/
def colR (c : Fin 4) : Fin 8 := ⟨(c : ℕ) + 4, by omega⟩

/-- The initial augmented matrix `[A | I]` of `Mat4x4::inverse`
(src/math/matrix.rs lines 83-88). -/
def augInit (A : Mat4x4) : Fin 4 → Fin 8 → ℚ := fun r c =>
  if h : (c : ℕ) < 4 then A r ⟨(c : ℕ), h⟩ else if (c : ℕ) = (r : ℕ) + 4 then 1 else 0

/-- The partial-pivot search of `Mat4x4::inverse` (src/math/matrix.rs lines
91-101): start from `(current_col, |aug[c][c]|)` and scan rows `c+1..4`,
keeping the first row with a strictly larger absolute value; returns the
pivot row together with `max_val`. -/
def findPivot (aug : Fin 4 → Fin 8 → ℚ) (c : Fin 4) : Fin 4 × ℚ :=
  ((List.finRange 4).filter (fun r => c < r)).foldl
    (fun best r => if |aug r (col4 c)| > best.2 then (r, |aug r (col4 c)|) else best)
    (c, |aug c (col4 c)|)

/-- Row swap of `Mat4x4::inverse` (src/math/matrix.rs lines 109-116). -/
def swapRows (aug : Fin 4 → Fin 8 → ℚ) (i j : Fin 4) : Fin 4 → Fin 8 → ℚ :=
  fun r c => if r = i then aug j c else if r = j then aug i c else aug r c

/-- Pivot-row scaling of `Mat4x4::inverse` (src/math/matrix.rs lines
118-123): divide the whole pivot row by the pivot element. -/
def scaleRow (aug : Fin 4 → Fin 8 → ℚ) (i : Fin 4) (p : ℚ) : Fin 4 → Fin 8 → ℚ :=
  fun r c => if r = i then aug r c / p else aug r c

/-- The elimination step of `Mat4x4::inverse` (src/math/matrix.rs lines
125-134): for every row other than the pivot row subtract
`factor * pivot-row` where `factor = aug[row][current_col]` (read before the
row is modified; the model's simultaneous functional update matches the
source's in-place column loop because the pivot row itself is not
modified). -/
def elimCol (aug : Fin 4 → Fin 8 → ℚ) (i : Fin 4) : Fin 4 → Fin 8 → ℚ :=
  fun r c => if r = i then aug r c else aug r c - aug r (col4 i) * aug i c

/-- One column of the Gauss-Jordan elimination of `Mat4x4::inverse`
(src/math/matrix.rs lines 90-135): pivot search, the singularity check
`max_val < 1e-10` (the sole `return None`), the conditional row swap, the
pivot-row scaling, and the elimination of the column in all other rows. -/
def gjStep (aug : Fin 4 → Fin 8 → ℚ) (c : Fin 4) : Option (Fin 4 → Fin 8 → ℚ) :=
  let best := findPivot aug c
  if best.2 < 1 / 10 ^ 10 then none
  else
    let aug1 := if best.1 ≠ c then swapRows aug c best.1 else aug
    let aug2 := scaleRow aug1 c (aug1 c (col4 c))
    some (elimCol aug2 c)

/-- Model of `Mat4x4::inverse` (src/math/matrix.rs lines 69-145):
Gauss-Jordan elimination with partial pivoting over the augmented `[A | I]`,
column by column; on success the right half of the augmented matrix is the
result. -/
def Mat4x4.inverse (A : Mat4x4) : Option Mat4x4 :=
  match (List.finRange 4).foldlM gjStep (augInit A) with
  | none => none
  | some aug => some (fun r c => aug r (colR c))

/-- Model of `Vec3f` for the exact-rational matrix section (the `f32`
components of src/math/vec3.rs modelled as exact rationals; the real-valued
model used for `length`/`normalize` appears in the lighting section). -/
structure QVec3 where
  x : ℚ
  y : ℚ
  z : ℚ
deriving DecidableEq

/-- Model of `Mat4x4::multiply_point` (src/math/matrix.rs lines 237-263):
extend the point with homogeneous `w = 1` (`Vec4f::from_point`), multiply
each matrix row by it, and drop the resulting `w` (`to_Vec3f`). -/
def Mat4x4.multiply_point (M : Mat4x4) (p : QVec3) : QVec3 :=
  QVec3.mk
    (M 0 0 * p.x + M 0 1 * p.y + M 0 2 * p.z + M 0 3 * 1)
    (M 1 0 * p.x + M 1 1 * p.y + M 1 2 * p.z + M 1 3 * 1)
    (M 2 0 * p.x + M 2 1 * p.y + M 2 2 * p.z + M 2 3 * 1)

/-- Model of `Mat4x4::translation` (src/math/matrix.rs lines 153-160). -/
def Mat4x4.translation (x y z : ℚ) : Mat4x4 :=
  Matrix.of ![![1, 0, 0, x], ![0, 1, 0, y], ![0, 0, 1, z], ![0, 0, 0, 1]]

/-- Model of `Mat4x4::rotation_x` (src/math/matrix.rs lines 169-179); the
arguments `c` and `s` stand for `angle.cos()` and `angle.sin()`, which are
irrational and therefore passed as the exact values the source computes. -/
def Mat4x4.rotation_x (c s : ℚ) : Mat4x4 :=
  Matrix.of ![![1, 0, 0, 0], ![0, c, -s, 0], ![0, s, c, 0], ![0, 0, 0, 1]]

/-- Model of `Mat4x4::rotation_y` (src/math/matrix.rs lines 187-197). -/
def Mat4x4.rotation_y (c s : ℚ) : Mat4x4 :=
  Matrix.of ![![c, 0, s, 0], ![0, 1, 0, 0], ![-s, 0, c, 0], ![0, 0, 0, 1]]

/-- Model of `Mat4x4::rotation_z` (src/math/matrix.rs lines 205-215). -/
def Mat4x4.rotation_z (c s : ℚ) : Mat4x4 :=
  Matrix.of ![![c, -s, 0, 0], ![s, c, 0, 0], ![0, 0, 1, 0], ![0, 0, 0, 1]]

/-- Model of `Mat4x4::scale` (src/math/matrix.rs lines 220-227). -/
def Mat4x4.scale (x y z : ℚ) : Mat4x4 :=
  Matrix.of ![![x, 0, 0, 0], ![0, y, 0, 0], ![0, 0, z, 0], ![0, 0, 0, 1]]

/-- Model of `GameObject::get_model_matrix` (src/scene.rs lines 46-54):
`translation.multiply(rotation_z.multiply(rotation_y.multiply(rotation_x.multiply(scale))))`,
with each rotation angle represented by its cosine/sine pair. -/
def get_model_matrix (pos : QVec3) (cx sx cy sy cz sz : ℚ) (scl : QVec3) : Mat4x4 :=
  Mat4x4.multiply (Mat4x4.translation pos.x pos.y pos.z)
    (Mat4x4.multiply (Mat4x4.rotation_z cz sz)
      (Mat4x4.multiply (Mat4x4.rotation_y cy sy)
        (Mat4x4.multiply (Mat4x4.rotation_x cx sx) (Mat4x4.scale scl.x scl.y scl.z))))

theorem Mat4x4.multiply_eq_mul (A B : Mat4x4) : Mat4x4.multiply A B = A * B := by
  funext r c
  rw [Matrix.mul_apply]
  rfl

/-- An affine matrix in the model: the last row is `(0, 0, 0, 1)`. -/
def LastRowAffine (A : Mat4x4) : Prop := ∀ c, A 3 c = if c = 3 then 1 else 0

theorem multiply_lastRowAffine {A B : Mat4x4} (hA : LastRowAffine A)
    (hB : LastRowAffine B) : LastRowAffine (Mat4x4.multiply A B) := by
  intro c
  simp [Mat4x4.multiply, Fin.sum_univ_four, hA 0, hA 1, hA 2, hA 3, hB c]

/-- Applying a product of 4x4 matrices to a point (homogeneous `w = 1`,
`w` dropped afterwards) equals applying the factors in sequence, provided
the right factor is affine so that the intermediate `w` stays 1. -/
theorem multiply_point_multiply (A B : Mat4x4) (hB : LastRowAffine B) (p : QVec3) :
    (Mat4x4.multiply A B).multiply_point p =
      A.multiply_point (B.multiply_point p) := by
  obtain ⟨x, y, z⟩ := p
  have h0 : B 3 0 = 0 := by simpa using hB 0
  have h1 : B 3 1 = 0 := by simpa using hB 1
  have h2 : B 3 2 = 0 := by simpa using hB 2
  have h3 : B 3 3 = 1 := by simpa using hB 3
  simp only [Mat4x4.multiply, Mat4x4.multiply_point, Fin.sum_univ_four, QVec3.mk.injEq,
    h0, h1, h2, h3]
  refine ⟨?_, ?_, ?_⟩ <;> ring

theorem translation_lastRowAffine (x y z : ℚ) : LastRowAffine (Mat4x4.translation x y z) := by
  intro c
  fin_cases c <;> rfl

theorem rotation_x_lastRowAffine (c s : ℚ) : LastRowAffine (Mat4x4.rotation_x c s) := by
  intro j
  fin_cases j <;> rfl

theorem rotation_y_lastRowAffine (c s : ℚ) : LastRowAffine (Mat4x4.rotation_y c s) := by
  intro j
  fin_cases j <;> rfl

theorem rotation_z_lastRowAffine (c s : ℚ) : LastRowAffine (Mat4x4.rotation_z c s) := by
  intro j
  fin_cases j <;> rfl

theorem scale_lastRowAffine (x y z : ℚ) : LastRowAffine (Mat4x4.scale x y z) := by
  intro j
  fin_cases j <;> rfl

/-- C8: `GameObject::get_model_matrix` returns exactly the product
`Translation * RotationZ * RotationY * RotationX * Scale` (the source nests
the `multiply` calls to the right; by associativity of the modelled row-by-
column product this equals the left-associated product of the claim), and
applying it to a point applies the scale first, then the X-, Y- and
Z-rotations, then the translation.  The rotation angles are represented by
their cosine/sine pairs since cosine and sine of a rational angle are
irrational. -/
theorem C8_model_matrix_order (pos : QVec3) (cx sx cy sy cz sz : ℚ) (scl : QVec3) :
    get_model_matrix pos cx sx cy sy cz sz scl =
      Mat4x4.multiply (Mat4x4.multiply (Mat4x4.multiply (Mat4x4.multiply
        (Mat4x4.translation pos.x pos.y pos.z) (Mat4x4.rotation_z cz sz))
        (Mat4x4.rotation_y cy sy)) (Mat4x4.rotation_x cx sx))
        (Mat4x4.scale scl.x scl.y scl.z) ∧
    ∀ p : QVec3, (get_model_matrix pos cx sx cy sy cz sz scl).multiply_point p =
      (Mat4x4.translation pos.x pos.y pos.z).multiply_point
        ((Mat4x4.rotation_z cz sz).multiply_point
          ((Mat4x4.rotation_y cy sy).multiply_point
            ((Mat4x4.rotation_x cx sx).multiply_point
              ((Mat4x4.scale scl.x scl.y scl.z).multiply_point p)))) := by
  constructor
  · simp only [get_model_matrix, Mat4x4.multiply_eq_mul, Matrix.mul_assoc]
  · intro p
    have hS := scale_lastRowAffine scl.x scl.y scl.z
    have hX := rotation_x_lastRowAffine cx sx
    have hY := rotation_y_lastRowAffine cy sy
    have hZ := rotation_z_lastRowAffine cz sz
    have hXS := multiply_lastRowAffine hX hS
    have hYXS := multiply_lastRowAffine hY hXS
    have hZYXS := multiply_lastRowAffine hZ hYXS
    rw [get_model_matrix, multiply_point_multiply _ _ hZYXS,
      multiply_point_multiply _ _ hYXS, multiply_point_multiply _ _ hXS,
      multiply_point_multiply _ _ hS]

/-! Soundness of the Gauss-Jordan inverse: every row operation applies the
same linear combination of rows to all eight columns, so the invariant
`left half = right half * A` holds throughout, and after the four pivot
columns are processed the left half is the identity, giving
`right half * A = I`. -/

/-- The augmented-matrix invariant of `[A | I]` under row operations: the
left half equals the right half times `A`. -/
def AugInv (A : Mat4x4) (aug : Fin 4 → Fin 8 → ℚ) : Prop :=
  ∀ (r j : Fin 4), aug r (col4 j) = ∑ k : Fin 4, aug r (colR k) * A k j

/-- After the first `n` columns are processed, those columns of the left
half are the corresponding columns of the identity, in every row. -/
def UnitCols (aug : Fin 4 → Fin 8 → ℚ) (n : ℕ) : Prop :=
  ∀ (r j : Fin 4), (j : ℕ) < n → aug r (col4 j) = if r = j then 1 else 0

theorem findPivot_spec (aug : Fin 4 → Fin 8 → ℚ) (c : Fin 4) :
    (findPivot aug c).2 = |aug (findPivot aug c).1 (col4 c)| ∧
      c ≤ (findPivot aug c).1 := by
  unfold findPivot
  have key : ∀ (l : List (Fin 4)), (∀ r ∈ l, c ≤ r) → ∀ (init : Fin 4 × ℚ),
      init.2 = |aug init.1 (col4 c)| → c ≤ init.1 →
      ((l.foldl (fun best r => if |aug r (col4 c)| > best.2
          then (r, |aug r (col4 c)|) else best) init).2 =
        |aug (l.foldl (fun best r => if |aug r (col4 c)| > best.2
          then (r, |aug r (col4 c)|) else best) init).1 (col4 c)| ∧
      c ≤ (l.foldl (fun best r => if |aug r (col4 c)| > best.2
          then (r, |aug r (col4 c)|) else best) init).1) := by
    intro l
    induction l with
    | nil => exact fun _ init h1 h2 => ⟨h1, h2⟩
    | cons a t ih =>
        intro hmem init h1 h2
        simp only [List.foldl_cons]
        by_cases hc : |aug a (col4 c)| > init.2
        · rw [if_pos hc]
          exact ih (fun r hr => hmem r (List.mem_cons_of_mem _ hr)) _ rfl
            (hmem a (List.mem_cons_self _ _))
        · rw [if_neg hc]
          exact ih (fun r hr => hmem r (List.mem_cons_of_mem _ hr)) _ h1 h2
  refine key _ ?_ _ rfl le_rfl
  intro r hr
  exact le_of_lt (by simpa using (List.mem_filter.1 hr).2)

theorem swapRows_augInv {A : Mat4x4} {aug : Fin 4 → Fin 8 → ℚ} (i j : Fin 4)
    (h : AugInv A aug) : AugInv A (swapRows aug i j) := by
  intro r t
  simp only [swapRows]
  split
  · exact h j t
  · split
    · exact h i t
    · exact h r t

theorem scaleRow_augInv {A : Mat4x4} {aug : Fin 4 → Fin 8 → ℚ} (i : Fin 4) (p : ℚ)
    (h : AugInv A aug) : AugInv A (scaleRow aug i p) := by
  intro r t
  simp only [scaleRow]
  split
  · rw [h r t, Finset.sum_div]
    congr 1
    funext k
    rw [div_mul_eq_mul_div]
  · exact h r t

theorem elimCol_augInv {A : Mat4x4} {aug : Fin 4 → Fin 8 → ℚ} (i : Fin 4)
    (h : AugInv A aug) : AugInv A (elimCol aug i) := by
  intro r t
  simp only [elimCol]
  split
  · exact h r t
  · rw [h r t, h i t, Finset.mul_sum, ← Finset.sum_sub_distrib]
    congr 1
    funext k
    ring

/-- One Gauss-Jordan column step preserves the `[A | I]` invariant, and
turns column `c` of the left half into the `c`-th identity column while
keeping the earlier unit columns (the pivot row comes from rows `≥ c`, whose
entries in the earlier columns are zero). -/
theorem gjStep_sound {A : Mat4x4} {aug aug' : Fin 4 → Fin 8 → ℚ} {c : Fin 4}
    (hinv : AugInv A aug) (hunit : UnitCols aug (c : ℕ))
    (h : gjStep aug c = some aug') :
    AugInv A aug' ∧ UnitCols aug' ((c : ℕ) + 1) := by
  obtain ⟨hspec1, hspec2⟩ := findPivot_spec aug c
  unfold gjStep at h
  by_cases hth : (findPivot aug c).2 < 1 / 10 ^ 10
  · rw [if_pos hth] at h
    exact absurd h (by simp)
  · rw [if_neg hth] at h
    have hp0 : aug (findPivot aug c).1 (col4 c) ≠ 0 := by
      intro hz
      rw [hspec1, hz] at hth
      norm_num at hth
    set P := (findPivot aug c).1 with hP
    set aug1 := if P ≠ c then swapRows aug c P else aug with haug1
    have hinv1 : AugInv A aug1 := by
      rw [haug1]
      split
      · exact swapRows_augInv _ _ hinv
      · exact hinv
    have hcP : (c : ℕ) ≤ (P : ℕ) := hspec2
    have hunit1 : UnitCols aug1 (c : ℕ) := by
      intro r j hj
      rw [haug1]
      split
      · simp only [swapRows]
        by_cases hrc : r = c
        · rw [if_pos hrc, hunit P j hj, if_neg (Fin.ne_of_val_ne (by omega)),
            if_neg (by rw [hrc]; exact Fin.ne_of_val_ne (by omega))]
        · rw [if_neg hrc]
          by_cases hrP : r = P
          · rw [if_pos hrP, hunit c j hj, if_neg (Fin.ne_of_val_ne (by omega)),
              if_neg (by rw [hrP]; exact Fin.ne_of_val_ne (by omega))]
          · rw [if_neg hrP]
            exact hunit r j hj
      · exact hunit r j hj
    have haug1cc : aug1 c (col4 c) = aug P (col4 c) := by
      rw [haug1]
      split
      · simp [swapRows]
      · rename_i hPc
        rw [not_ne_iff.1 hPc]
    have hpz : aug1 c (col4 c) ≠ 0 := by
      rw [haug1cc]
      exact hp0
    set aug2 := scaleRow aug1 c (aug1 c (col4 c)) with haug2
    have hinv2 : AugInv A aug2 := scaleRow_augInv _ _ hinv1
    have hunit2 : UnitCols aug2 (c : ℕ) := by
      intro r j hj
      rw [haug2]
      simp only [scaleRow]
      split
      · rename_i hrc
        rw [hunit1 r j hj, if_neg (by rw [hrc]; exact Fin.ne_of_val_ne (by omega))]
        norm_num
      · exact hunit1 r j hj
    have haug2cc : aug2 c (col4 c) = 1 := by
      rw [haug2]
      simp only [scaleRow, if_pos rfl]
      exact div_self hpz
    have haug' : aug' = elimCol aug2 c := (Option.some.inj h).symm
    subst haug'
    refine ⟨elimCol_augInv _ hinv2, ?_⟩
    intro r j hj
    by_cases hjc : (j : ℕ) < (c : ℕ)
    · simp only [elimCol]
      by_cases hrc : r = c
      · rw [if_pos hrc, hunit2 r j hjc]
      · rw [if_neg hrc, hunit2 r j hjc, hunit2 c j hjc,
          if_neg (show ¬(c = j) from Fin.ne_of_val_ne (by omega))]
        ring_nf
    · have hjc' : j = c := Fin.ext (by omega)
      subst hjc'
      simp only [elimCol]
      by_cases hrc : r = j
      · rw [if_pos hrc, hrc, haug2cc, if_pos rfl]
      · rw [if_neg hrc, haug2cc, if_neg hrc]
        ring

theorem augInit_augInv (A : Mat4x4) : AugInv A (augInit A) := by
  intro r j
  have hL : augInit A r (col4 j) = A r j := by
    simp only [augInit]
    rw [dif_pos (show ((col4 j : Fin 8) : ℕ) < 4 from j.isLt)]
    congr 1
  have hR : ∀ k : Fin 4, augInit A r (colR k) = if k = r then 1 else 0 := by
    intro k
    simp only [augInit]
    rw [dif_neg (show ¬((colR k : Fin 8) : ℕ) < 4 by simp [colR])]
    by_cases hk : k = r
    · subst hk
      rw [if_pos (by simp [colR]), if_pos rfl]
    · rw [if_neg (by simp only [colR]; have := Fin.val_ne_of_ne hk; omega), if_neg hk]
  rw [hL, Finset.sum_congr rfl (fun k _ => by rw [hR k])]
  rw [Fin.sum_univ_four]
  fin_cases r <;> simp

theorem augInit_unitCols (A : Mat4x4) : UnitCols (augInit A) 0 :=
  fun _ j hj => absurd hj (by omega)

/-- When the Gauss-Jordan elimination of `Mat4x4::inverse` completes, the
returned matrix is a left inverse of the input: the `[A | I]` invariant
gives `left = B * A`, and the unit-column invariant gives `left = I`. -/
theorem inverse_left_inverse {A B : Mat4x4} (h : Mat4x4.inverse A = some B) :
    B * A = 1 := by
  unfold Mat4x4.inverse at h
  rw [show List.finRange 4 = [0, 1, 2, 3] from rfl] at h
  simp only [List.foldlM_cons, List.foldlM_nil] at h
  cases h0 : gjStep (augInit A) 0 with
  | none => rw [h0] at h; simp at h
  | some a1 =>
  rw [h0] at h
  simp only [Option.bind_eq_bind, Option.some_bind] at h
  cases h1 : gjStep a1 1 with
  | none => rw [h1] at h; simp at h
  | some a2 =>
  rw [h1] at h
  simp only [Option.bind_eq_bind, Option.some_bind] at h
  cases h2 : gjStep a2 2 with
  | none => rw [h2] at h; simp at h
  | some a3 =>
  rw [h2] at h
  simp only [Option.bind_eq_bind, Option.some_bind] at h
  cases h3 : gjStep a3 3 with
  | none => rw [h3] at h; simp at h
  | some a4 =>
  rw [h3] at h
  simp only [Option.bind_eq_bind, Option.some_bind, Option.pure_def, Option.some.injEq] at h
  obtain ⟨inv1, unit1⟩ := gjStep_sound (augInit_augInv A) (augInit_unitCols A) h0
  obtain ⟨inv2, unit2⟩ := gjStep_sound inv1 unit1 h1
  obtain ⟨inv3, unit3⟩ := gjStep_sound inv2 unit2 h2
  obtain ⟨inv4, unit4⟩ := gjStep_sound inv3 unit3 h3
  have hB : B = fun r c => a4 r (colR c) := h.symm
  subst hB
  ext r j
  rw [Matrix.mul_apply, Matrix.one_apply]
  have := inv4 r j
  rw [← this, unit4 r j (by omega)]

/-- C5: `Mat4x4::inverse` is Gauss-Jordan elimination on the `[A | I]`
augmented matrix with partial pivoting, and its sole failure (`None`) is the
pivot-magnitude check `max_val < 1e-10`.  Consequences proved here: (1) for
every matrix with two identical rows the elimination must hit such a pivot,
because a completed run would produce a left inverse of a determinant-zero
matrix (`inverse_left_inverse`); (2) likewise for every matrix with an
all-zero row; (3) the threshold really is 1e-10 and not zero: the diagonal
matrix with first entry 1e-11 is invertible over the exact rationals but is
still rejected. -/
theorem C5_inverse_gauss_jordan_singularity :
    (∀ (A : Mat4x4) (i j : Fin 4), i ≠ j → (∀ c, A i c = A j c) →
      Mat4x4.inverse A = none) ∧
    (∀ (A : Mat4x4) (i : Fin 4), (∀ c, A i c = 0) → Mat4x4.inverse A = none) ∧
    Mat4x4.inverse (Matrix.of ![![1/100000000000, 0, 0, 0], ![0, 1, 0, 0],
      ![0, 0, 1, 0], ![0, 0, 0, 1]]) = none := by
  refine ⟨?_, ?_, by with_unfolding_all rfl⟩
  · intro A i j hij hrow
    cases hinv : Mat4x4.inverse A with
    | none => rfl
    | some B =>
        exfalso
        have hBA := inverse_left_inverse hinv
        have hdet : A.det = 0 := Matrix.det_zero_of_row_eq hij (funext hrow)
        have h1 : B.det * A.det = 1 := by
          rw [← Matrix.det_mul, hBA, Matrix.det_one]
        rw [hdet, mul_zero] at h1
        exact zero_ne_one h1
  · intro A i hrow
    cases hinv : Mat4x4.inverse A with
    | none => rfl
    | some B =>
        exfalso
        have hBA := inverse_left_inverse hinv
        have hdet : A.det = 0 := Matrix.det_eq_zero_of_row_eq_zero i hrow
        have h1 : B.det * A.det = 1 := by
          rw [← Matrix.det_mul, hBA, Matrix.det_one]
        rw [hdet, mul_zero] at h1
        exact zero_ne_one h1

/-- Witness for C5: the repository's own `test_singular_matrix` input (four
identical rows) is rejected by `inverse`. -/
theorem C5_inverse_gauss_jordan_singularity_witness :
    Mat4x4.inverse (Matrix.of ![![1, 2, 3, 4], ![1, 2, 3, 4], ![1, 2, 3, 4],
      ![1, 2, 3, 4]]) = none :=
  C5_inverse_gauss_jordan_singularity.1 _ 0 1 (by decide)
    (by intro c; fin_cases c <;> rfl)

/-! Real-valued model of `Vec3f` (src/math/vec3.rs) and the lighting system
(src/lighting.rs).  `length` takes a square root and the light evaluation
uses `powf`/`acos`, all irrational, so this part of the embedding lives over
the real numbers (`Real.sqrt`, real rpow, `Real.arccos` model the exact
mathematical values of the `f32` operations). -/

/-- Model of `Vec3f` (src/math/vec3.rs lines 3-8). -/
structure Vec3f where
  x : ℝ
  y : ℝ
  z : ℝ

/-- Model of `Vec3f::zero`. -/
def Vec3f.zero : Vec3f := ⟨0, 0, 0⟩

/-- Componentwise addition (`impl Add for Vec3f`). -/
instance : Add Vec3f := ⟨fun a b => ⟨a.x + b.x, a.y + b.y, a.z + b.z⟩⟩

/-- Componentwise subtraction (`impl Sub for Vec3f`). -/
instance : Sub Vec3f := ⟨fun a b => ⟨a.x - b.x, a.y - b.y, a.z - b.z⟩⟩

/-- Componentwise negation (`impl Neg for Vec3f`). -/
instance : Neg Vec3f := ⟨fun a => ⟨-a.x, -a.y, -a.z⟩⟩

/-- Scalar multiplication (`impl Mul<f32> for Vec3f`). -/
instance : HMul Vec3f ℝ Vec3f := ⟨fun v s => ⟨v.x * s, v.y * s, v.z * s⟩⟩

/-- Componentwise multiplication (`impl Mul<Vec3f> for Vec3f`). -/
instance : Mul Vec3f := ⟨fun a b => ⟨a.x * b.x, a.y * b.y, a.z * b.z⟩⟩

/-- Model of `Vec3f::dot` (src/math/vec3.rs lines 28-30). -/
def Vec3f.dot (a b : Vec3f) : ℝ := a.x * b.x + a.y * b.y + a.z * b.z

/-- Model of `Vec3f::cross` (src/math/vec3.rs lines 32-38). -/
def Vec3f.cross (a b : Vec3f) : Vec3f :=
  ⟨a.y * b.z - a.z * b.y, a.z * b.x - a.x * b.z, a.x * b.y - a.y * b.x⟩

/-- Model of `Vec3f::length` (src/math/vec3.rs lines 15-17):
`sqrt(x*x + y*y + z*z)`. -/
noncomputable def Vec3f.length (v : Vec3f) : ℝ :=
  Real.sqrt (v.x * v.x + v.y * v.y + v.z * v.z)

/-- Model of `Vec3f::normalize` (src/math/vec3.rs lines 19-26): divide each
component by the length when `len > 0.0`, otherwise return the vector
unchanged. -/
noncomputable def Vec3f.normalize (v : Vec3f) : Vec3f :=
  if v.length > 0 then ⟨v.x / v.length, v.y / v.length, v.z / v.length⟩ else v

/-- C6: `normalize` of a vector of length zero is the zero vector (over the
exact reals a zero length forces every component to be zero, and the
`len > 0.0` guard means no division happens -- never a division by zero, so
never a NaN), and `normalize` of a vector of nonzero length has length
exactly 1. -/
theorem C6_normalize_spec (v : Vec3f) :
    (v.length = 0 → v.normalize = Vec3f.zero) ∧
    (v.length ≠ 0 → v.normalize.length = 1) := by
  obtain ⟨x, y, z⟩ := v
  have hnn : 0 ≤ x * x + y * y + z * z :=
    add_nonneg (add_nonneg (mul_self_nonneg x) (mul_self_nonneg y)) (mul_self_nonneg z)
  constructor
  · intro h0
    have hsq : x * x + y * y + z * z = 0 := by
      have := (Real.sqrt_eq_zero hnn).1 h0
      exact this
    have hx : x = 0 := by nlinarith [sq_nonneg x, sq_nonneg y, sq_nonneg z]
    have hy : y = 0 := by nlinarith [sq_nonneg x, sq_nonneg y, sq_nonneg z]
    have hz : z = 0 := by nlinarith [sq_nonneg x, sq_nonneg y, sq_nonneg z]
    rw [Vec3f.normalize, if_neg (by rw [h0]; exact lt_irrefl 0)]
    rw [Vec3f.zero, hx, hy, hz]
  · intro hne
    have hpos : 0 < Vec3f.length ⟨x, y, z⟩ :=
      lt_of_le_of_ne (Real.sqrt_nonneg _) (Ne.symm hne)
    rw [Vec3f.normalize, if_pos hpos]
    set l := Vec3f.length ⟨x, y, z⟩ with hl
    have hll : l * l = x * x + y * y + z * z := Real.mul_self_sqrt hnn
    have hl0 : l ≠ 0 := ne_of_gt hpos
    show Real.sqrt (x / l * (x / l) + y / l * (y / l) + z / l * (z / l)) = 1
    have harg : x / l * (x / l) + y / l * (y / l) + z / l * (z / l) = 1 := by
      field_simp
      linarith [hll]
    rw [harg, Real.sqrt_one]

/-- Witness for C6: the zero vector normalizes to the zero vector, and the
length-5 vector `(3, 4, 0)` normalizes to a unit vector. -/
theorem C6_normalize_spec_witness :
    Vec3f.normalize ⟨0, 0, 0⟩ = Vec3f.zero ∧
    (Vec3f.normalize ⟨3, 4, 0⟩).length = 1 :=
  ⟨(C6_normalize_spec ⟨0, 0, 0⟩).1 (by
      simp [Vec3f.length]),
   (C6_normalize_spec ⟨3, 4, 0⟩).2 (by
      simp only [Vec3f.length]
      rw [show (3 : ℝ) * 3 + 4 * 4 + 0 * 0 = 5 ^ 2 by norm_num,
        Real.sqrt_sq (by norm_num)]
      norm_num)⟩

/-- Model of `LightType` (src/lighting.rs lines 3-8). -/
inductive LightType where
  | Directional : LightType
  | Point : LightType
  | Spot : ℝ → ℝ → LightType

/-- Model of `Light` (src/lighting.rs lines 10-18). -/
structure Light where
  light_type : LightType
  position : Vec3f
  direction : Vec3f
  color : Vec3f
  intensity : ℝ
  range : ℝ

/-- Model of `Light::calculate_lighting` (src/lighting.rs lines 55-123).
The per-light-type `match` computes a light direction and an attenuation
(with early `(0.0, 0.0)` returns on out-of-range or out-of-cone surfaces);
then the Lambert diffuse term and the Blinn-Phong specular term with the
HARD-CODED `specular_power = 32.0` (src/lighting.rs line 119) -- the
function does not receive a material, and `Material::specular_power` is
never read. -/
noncomputable def Light.calculate_lighting (l : Light)
    (surface_point surface_normal view_direction : Vec3f) : ℝ × ℝ :=
  let finish : Vec3f → ℝ → ℝ × ℝ := fun light_direction attenuation =>
    if attenuation ≤ 0 then (0, 0)
    else
      let diffuse := max (surface_normal.dot light_direction) 0
      let half_vector := (light_direction + view_direction).normalize
      let specular_power : ℝ := 32
      let specular := (max (surface_normal.dot half_vector) 0) ^ specular_power
      (diffuse * attenuation, specular * attenuation)
  match l.light_type with
  | .Directional => finish (-l.direction) 1
  | .Point =>
      let light_dir := l.position - surface_point
      let distance := light_dir.length
      if distance > l.range then (0, 0)
      else
        let normalized_dir := light_dir.normalize
        let attenuation := 1 / (1 + 0.1 * distance + 0.01 * distance * distance)
        let range_attenuation := max ((l.range - distance) / l.range) 0
        finish normalized_dir (attenuation * range_attenuation)
  | .Spot inner_angle outer_angle =>
      let light_to_surface := surface_point - l.position
      let distance := light_to_surface.length
      if distance > l.range then (0, 0)
      else
        let light_direction := light_to_surface.normalize
        let spot_direction := l.direction
        let angle := Real.arccos (light_direction.dot spot_direction)
        if angle > outer_angle then (0, 0)
        else
          let spot_attenuation :=
            if angle < inner_angle then 1
            else ((outer_angle - angle) / (outer_angle - inner_angle)) ^ (2 : ℝ)
          let distance_attenuation := 1 / (1 + 0.1 * distance + 0.01 * distance * distance)
          let range_attenuation := max ((l.range - distance) / l.range) 0
          finish (-light_direction) (distance_attenuation * range_attenuation * spot_attenuation)

/-- Model of `Material` (src/lighting.rs lines 126-141); `Material::new`
sets `ambient_factor = 0.1`. -/
structure Material where
  diffuse_color : Vec3f
  specular_color : Vec3f
  specular_power : ℝ
  ambient_factor : ℝ

/-- Model of `LightingSystem` (src/lighting.rs lines 152-156). -/
structure LightingSystem where
  lights : List Light
  ambient_color : Vec3f
  ambient_intensity : ℝ

/-- Model of `LightingSystem::calculate_lighting` (src/lighting.rs lines
176-211): the ambient term, the early return when the surface normal has
length exactly zero (before the per-light loop and before the final clamp),
the per-light accumulation, and the final per-channel clamp to [0, 1]. -/
noncomputable def LightingSystem.calculate_lighting (sys : LightingSystem)
    (surface_point surface_normal camera_position : Vec3f)
    (material : Material) : Vec3f :=
  let ambient := sys.ambient_color * sys.ambient_intensity * material.ambient_factor
  let final_color := ambient * material.diffuse_color
  if surface_normal.length = 0 then final_color
  else
    let view_direction := (camera_position - surface_point).normalize
    let acc := sys.lights.foldl (fun acc light =>
      let ds := light.calculate_lighting surface_point surface_normal view_direction
      if ds.1 > 0 ∨ ds.2 > 0 then
        let diffuse_contribution := light.color * light.intensity * ds.1
        let acc1 := acc + diffuse_contribution * material.diffuse_color
        let specular_contribution := light.color * light.intensity * ds.2
        acc1 + specular_contribution * material.specular_color
      else acc) final_color
    ⟨max (min acc.x 1) 0, max (min acc.y 1) 0, max (min acc.z 1) 0⟩

/-- C9: when the surface normal has length zero,
`LightingSystem::calculate_lighting` returns exactly
`ambient_color * ambient_intensity * material.ambient_factor *
material.diffuse_color`, with no per-light contribution and without the
final per-channel clamp (the equality holds even when the ambient product
exceeds 1, as the witness shows). -/
theorem C9_zero_normal_ambient_only (sys : LightingSystem)
    (surface_point surface_normal camera_position : Vec3f) (material : Material)
    (h : surface_normal.length = 0) :
    sys.calculate_lighting surface_point surface_normal camera_position material =
      sys.ambient_color * sys.ambient_intensity * material.ambient_factor *
        material.diffuse_color := by
  simp only [LightingSystem.calculate_lighting, if_pos h]

/-- Witness for C9: with ambient color `(1,1,1)`, ambient intensity 20,
ambient factor 1 and diffuse `(1,1,1)`, a zero normal yields `(20,20,20)` --
unclamped, and unaffected by the one directional light in the scene. -/
theorem C9_zero_normal_ambient_only_witness :
    LightingSystem.calculate_lighting
      ⟨[⟨LightType.Directional, Vec3f.zero, ⟨0, 0, -1⟩, ⟨1, 1, 1⟩, 1, 0⟩], ⟨1, 1, 1⟩, 20⟩
      ⟨0, 0, 0⟩ ⟨0, 0, 0⟩ ⟨5, 5, 5⟩ ⟨⟨1, 1, 1⟩, ⟨1, 1, 1⟩, 32, 1⟩ =
      Vec3f.mk 20 20 20 := by
  rw [C9_zero_normal_ambient_only _ _ _ _ _ (by simp [Vec3f.length])]
  show Vec3f.mk (1 * 20 * 1 * 1) (1 * 20 * 1 * 1) (1 * 20 * 1 * 1) = Vec3f.mk 20 20 20
  norm_num

theorem Vec3f.neg_def (a : Vec3f) : -a = ⟨-a.x, -a.y, -a.z⟩ := rfl

theorem Vec3f.add_def (a b : Vec3f) : a + b = ⟨a.x + b.x, a.y + b.y, a.z + b.z⟩ := rfl

theorem Vec3f.sub_def (a b : Vec3f) : a - b = ⟨a.x - b.x, a.y - b.y, a.z - b.z⟩ := rfl

/-- C3 (code bug): `Light::calculate_lighting` computes the Blinn-Phong
specular term with the hard-coded exponent `specular_power = 32.0`
(src/lighting.rs line 119); it does not receive the material, and
`Material::specular_power` (e.g. the 128.0 of `Scene::add_cube_at`'s shiny
material) is never read.  At a concrete input -- directional light along
`-z`, surface normal `(0, 3/5, 4/5)`, view direction `(0, 0, 1)`, so
`normal . halfVector = 4/5` -- the specular term is `(4/5)^32`, which
differs from the `(4/5)^128` the claim requires for a specular-power-128
material. -/
theorem C3_specular_exponent_is_hardcoded_32 :
    Light.calculate_lighting
      ⟨LightType.Directional, Vec3f.zero, ⟨0, 0, -1⟩, ⟨1, 1, 1⟩, 1, 0⟩
      ⟨0, 0, 0⟩ ⟨0, 3/5, 4/5⟩ ⟨0, 0, 1⟩ =
      (4/5, (4/5 : ℝ) ^ (32 : ℝ)) ∧
    (4/5 : ℝ) ^ (32 : ℝ) ≠ (4/5 : ℝ) ^ (128 : ℝ) := by
  constructor
  · have hnorm : Vec3f.normalize ⟨0, 0, 2⟩ = ⟨0, 0, 1⟩ := by
      have hlen : Vec3f.length ⟨0, 0, 2⟩ = 2 := by
        simp only [Vec3f.length]
        rw [show (0 : ℝ) * 0 + 0 * 0 + 2 * 2 = 2 ^ 2 by norm_num,
          Real.sqrt_sq (by norm_num)]
      rw [Vec3f.normalize, if_pos (by rw [hlen]; norm_num), hlen]
      norm_num
    simp only [Light.calculate_lighting, Vec3f.neg_def, Vec3f.add_def]
    norm_num
    rw [hnorm]
    simp only [Vec3f.dot]
    norm_num
  · exact ne_of_gt (Real.rpow_lt_rpow_of_exponent_gt (by norm_num) (by norm_num)
      (by norm_num))

/-! Scene projection pipeline (src/scene.rs): the per-triangle path of
`Scene::render_game_object` from world-space vertices to the
`renderer.draw_triangle` call, modelled over exact reals.  The projection
matrix involves a tangent, so this section uses real-valued 4x4 matrices. -/

/-- Real-valued `4x4` matrix for the projection pipeline (the `f32` entries
of `Mat4x4`, src/math/matrix.rs lines 5-8, modelled as exact reals). -/
abbrev Mat4R := Matrix (Fin 4) (Fin 4) ℝ

/-- Model of `Vec4f` (src/math/vec4.rs lines 4-9). -/
structure Vec4f where
  x : ℝ
  y : ℝ
  z : ℝ
  w : ℝ

/-- Real-valued model of `Mat4x4::multiply_point` (src/math/matrix.rs lines
237-263): extend the point with homogeneous `w = 1` (`Vec4f::from_point`),
multiply each matrix row by it, and drop the resulting `w` (`to_Vec3f`);
there is no perspective divide here. -/
def Mat4R.multiply_point (M : Mat4R) (p : Vec3f) : Vec3f :=
  ⟨M 0 0 * p.x + M 0 1 * p.y + M 0 2 * p.z + M 0 3 * 1,
   M 1 0 * p.x + M 1 1 * p.y + M 1 2 * p.z + M 1 3 * 1,
   M 2 0 * p.x + M 2 1 * p.y + M 2 2 * p.z + M 2 3 * 1⟩

/-- Modelled from the spec: `Mat4x4::multiply_point_4d` is called at
src/scene.rs line 194 but its definition is missing from the repository's
src/.  Per the spec's homogeneous-coordinate contract (`w = 1` for
positions; the caller reads `.x`, `.y` and `.w` of the result for the
perspective divide), it multiplies the matrix by `(x, y, z, 1)` and keeps
all four components. -/
def Mat4R.multiply_point_4d (M : Mat4R) (p : Vec3f) : Vec4f :=
  ⟨M 0 0 * p.x + M 0 1 * p.y + M 0 2 * p.z + M 0 3 * 1,
   M 1 0 * p.x + M 1 1 * p.y + M 1 2 * p.z + M 1 3 * 1,
   M 2 0 * p.x + M 2 1 * p.y + M 2 2 * p.z + M 2 3 * 1,
   M 3 0 * p.x + M 3 1 * p.y + M 3 2 * p.z + M 3 3 * 1⟩

/-- Modelled from the spec: `Mat4x4::perspective` is called by
`Camera::get_projection_matrix` (src/camera.rs line 36) but its definition
is missing from the repository's src/.  The spec prescribes the standard
OpenGL-style frustum: `f = 1/tan(fovY/2)`, row 3 encodes `-1` for the
perspective divide. -/
noncomputable def Mat4R.perspective (fovY aspect near far : ℝ) : Mat4R :=
  let f := 1 / Real.tan (fovY / 2)
  Matrix.of
    ![![f / aspect, 0, 0, 0],
      ![0, f, 0, 0],
      ![0, 0, (far + near) / (near - far), 2 * far * near / (near - far)],
      ![0, 0, -1, 0]]

/-- Entry-level evaluation of `Mat4R.multiply_point` on a matrix literal
(pure index computation, definitionally). -/
theorem Mat4R.multiply_point_entries
    (a00 a01 a02 a03 a10 a11 a12 a13 a20 a21 a22 a23 a30 a31 a32 a33 : ℝ)
    (p : Vec3f) :
    Mat4R.multiply_point (Matrix.of
        ![![a00, a01, a02, a03], ![a10, a11, a12, a13],
          ![a20, a21, a22, a23], ![a30, a31, a32, a33]]) p =
      ⟨a00 * p.x + a01 * p.y + a02 * p.z + a03 * 1,
       a10 * p.x + a11 * p.y + a12 * p.z + a13 * 1,
       a20 * p.x + a21 * p.y + a22 * p.z + a23 * 1⟩ := rfl

/-- Entry-level evaluation of `Mat4R.multiply_point_4d` on a matrix literal
(pure index computation, definitionally). -/
theorem Mat4R.multiply_point_4d_entries
    (a00 a01 a02 a03 a10 a11 a12 a13 a20 a21 a22 a23 a30 a31 a32 a33 : ℝ)
    (p : Vec3f) :
    Mat4R.multiply_point_4d (Matrix.of
        ![![a00, a01, a02, a03], ![a10, a11, a12, a13],
          ![a20, a21, a22, a23], ![a30, a31, a32, a33]]) p =
      ⟨a00 * p.x + a01 * p.y + a02 * p.z + a03 * 1,
       a10 * p.x + a11 * p.y + a12 * p.z + a13 * 1,
       a20 * p.x + a21 * p.y + a22 * p.z + a23 * 1,
       a30 * p.x + a31 * p.y + a32 * p.z + a33 * 1⟩ := rfl

/-- Unfolding of `Mat4R.perspective` to its matrix literal. -/
theorem Mat4R.perspective_def (fovY aspect near far : ℝ) :
    Mat4R.perspective fovY aspect near far = Matrix.of
      ![![1 / Real.tan (fovY / 2) / aspect, 0, 0, 0],
        ![0, 1 / Real.tan (fovY / 2), 0, 0],
        ![0, 0, (far + near) / (near - far), 2 * far * near / (near - far)],
        ![0, 0, -1, 0]] := rfl

/-- Model of `Scene::project_to_screen` (src/scene.rs lines 188-213);
`none` models Rust's `None`.  Note the source computes and checks only the
NDC `x` and `y` coordinates; an NDC `z` is never formed. -/
noncomputable def project_to_screen (camera_point : Vec3f) (proj_matrix : Mat4R)
    (width height : ℕ) : Option (ℝ × ℝ) :=
  if camera_point.z ≥ 0 then none
  else
    let projected_4d := Mat4R.multiply_point_4d proj_matrix camera_point
    if projected_4d.w = 0 then none
    else
      let ndc_x := projected_4d.x / projected_4d.w
      let ndc_y := projected_4d.y / projected_4d.w
      if ndc_x < -1 ∨ ndc_x > 1 ∨ ndc_y < -1 ∨ ndc_y > 1 then none
      else some ((ndc_x + 1) * 0.5 * (width : ℝ), (1 - ndc_y) * 0.5 * (height : ℝ))

/-- Model of `Scene::vec3_to_color` (src/scene.rs lines 215-221): each
channel clamped to `[0,1]` (`min(1.0).max(0.0)`), scaled by 255 and
truncated toward zero (`as u32` on a nonnegative float is the floor), then
packed as `0xFF000000 | r << 16 | g << 8 | b`. -/
noncomputable def vec3_to_color (color : Vec3f) : ℕ :=
  let r := (⌊max (min color.x 1) 0 * 255⌋).toNat
  let g := (⌊max (min color.y 1) 0 * 255⌋).toNat
  let b := (⌊max (min color.z 1) 0 * 255⌋).toNat
  0xFF000000 ||| (r <<< 16) ||| (g <<< 8) ||| b

/-- The argument tuple of a `renderer.draw_triangle` call issued by
`Scene::render_game_object` (src/scene.rs line 183): the three screen-space
points, the three normalized depths, and the packed color. -/
structure DrawCall where
  screen0 : ℝ × ℝ
  screen1 : ℝ × ℝ
  screen2 : ℝ × ℝ
  z0 : ℝ
  z1 : ℝ
  z2 : ℝ
  color : ℕ

/-- Model of the per-triangle body of `Scene::render_game_object`
(src/scene.rs lines 122-185): the centroid, the backface-culling test, the
camera-space transform of the three vertices, the behind-camera gate
`z >= 0`, the three screen projections, and -- when all three succeed --
the lighting evaluation at the centroid and the normalized depths
`-z/100`.  `none` models `continue` (the triangle is dropped for the
frame); `some dc` means `renderer.draw_triangle` is invoked with exactly
the arguments in `dc`.  The per-triangle `world_normal` and the resolved
`material` are passed in (the source resolves them from the mesh's normal
list and the game object's material list, src/scene.rs lines 129-133 and
164-166). -/
noncomputable def render_game_object_triangle (camera_position : Vec3f)
    (lighting : LightingSystem) (material : Material)
    (view_matrix proj_matrix : Mat4R) (width height : ℕ)
    (v0_world v1_world v2_world world_normal : Vec3f) : Option DrawCall :=
  let triangle_center : Vec3f :=
    ⟨(v0_world.x + v1_world.x + v2_world.x) / 3,
     (v0_world.y + v1_world.y + v2_world.y) / 3,
     (v0_world.z + v1_world.z + v2_world.z) / 3⟩
  let view_direction := (camera_position - triangle_center).normalize
  if world_normal.dot view_direction < 0 then none
  else
    let v0_camera := Mat4R.multiply_point view_matrix v0_world
    let v1_camera := Mat4R.multiply_point view_matrix v1_world
    let v2_camera := Mat4R.multiply_point view_matrix v2_world
    if v0_camera.z ≥ 0 ∨ v1_camera.z ≥ 0 ∨ v2_camera.z ≥ 0 then none
    else
      match project_to_screen v0_camera proj_matrix width height,
          project_to_screen v1_camera proj_matrix width height,
          project_to_screen v2_camera proj_matrix width height with
      | some screen0, some screen1, some screen2 =>
          let lit_color := lighting.calculate_lighting triangle_center world_normal
            camera_position material
          let final_color := vec3_to_color lit_color
          some ⟨screen0, screen1, screen2, -v0_camera.z / 100, -v1_camera.z / 100,
            -v2_camera.z / 100, final_color⟩
      | _, _, _ => none

/-- `project_to_screen` succeeds exactly when the camera-space `z` is
negative, the homogeneous `w` is nonzero, and the NDC `x` and `y` lie in
`[-1, 1]`. -/
theorem project_to_screen_isSome_iff (p : Vec3f) (M : Mat4R) (W H : ℕ) :
    (project_to_screen p M W H).isSome = true ↔
      p.z < 0 ∧ (Mat4R.multiply_point_4d M p).w ≠ 0 ∧
      -1 ≤ (Mat4R.multiply_point_4d M p).x / (Mat4R.multiply_point_4d M p).w ∧
      (Mat4R.multiply_point_4d M p).x / (Mat4R.multiply_point_4d M p).w ≤ 1 ∧
      -1 ≤ (Mat4R.multiply_point_4d M p).y / (Mat4R.multiply_point_4d M p).w ∧
      (Mat4R.multiply_point_4d M p).y / (Mat4R.multiply_point_4d M p).w ≤ 1 := by
  simp only [project_to_screen]
  by_cases h1 : p.z ≥ 0
  · rw [if_pos h1]
    simp only [Option.isSome_none, Bool.false_eq_true, false_iff]
    rintro ⟨hz, -⟩
    exact absurd h1 (not_le.2 hz)
  · rw [if_neg h1]
    by_cases h2 : (Mat4R.multiply_point_4d M p).w = 0
    · rw [if_pos h2]
      simp only [Option.isSome_none, Bool.false_eq_true, false_iff]
      rintro ⟨-, hw, -⟩
      exact hw h2
    · rw [if_neg h2]
      by_cases h3 : (Mat4R.multiply_point_4d M p).x / (Mat4R.multiply_point_4d M p).w < -1 ∨
          (Mat4R.multiply_point_4d M p).x / (Mat4R.multiply_point_4d M p).w > 1 ∨
          (Mat4R.multiply_point_4d M p).y / (Mat4R.multiply_point_4d M p).w < -1 ∨
          (Mat4R.multiply_point_4d M p).y / (Mat4R.multiply_point_4d M p).w > 1
      · rw [if_pos h3]
        simp only [Option.isSome_none, Bool.false_eq_true, false_iff]
        rintro ⟨-, -, ha, hb, hc, hd⟩
        rcases h3 with h | h | h | h <;> linarith
      · rw [if_neg h3]
        push_neg at h3
        simp only [Option.isSome_some, true_iff]
        exact ⟨not_le.1 h1, h2, h3.1, h3.2.1, h3.2.2.1, h3.2.2.2⟩

/-- If the per-triangle render body issues a draw call, all three
camera-space vertices projected successfully. -/
theorem render_isSome_projections (cp : Vec3f) (sys : LightingSystem)
    (mat : Material) (V P : Mat4R) (W H : ℕ) (v0 v1 v2 n : Vec3f)
    (hR : (render_game_object_triangle cp sys mat V P W H v0 v1 v2 n).isSome = true) :
    (project_to_screen (Mat4R.multiply_point V v0) P W H).isSome = true ∧
    (project_to_screen (Mat4R.multiply_point V v1) P W H).isSome = true ∧
    (project_to_screen (Mat4R.multiply_point V v2) P W H).isSome = true := by
  simp only [render_game_object_triangle] at hR
  split at hR
  · exact absurd hR (by simp)
  · split at hR
    · exact absurd hR (by simp)
    · split at hR
      · rename_i s0 s1 s2 h0 h1 h2
        exact ⟨by rw [h0]; rfl, by rw [h1]; rfl, by rw [h2]; rfl⟩
      · exact absurd hR (by simp)

/-- If any of the three camera-space vertices fails to project, the whole
triangle is dropped. -/
theorem render_none_of_projection_none (cp : Vec3f) (sys : LightingSystem)
    (mat : Material) (V P : Mat4R) (W H : ℕ) (v0 v1 v2 n : Vec3f)
    (hnone : project_to_screen (Mat4R.multiply_point V v0) P W H = none ∨
      project_to_screen (Mat4R.multiply_point V v1) P W H = none ∨
      project_to_screen (Mat4R.multiply_point V v2) P W H = none) :
    render_game_object_triangle cp sys mat V P W H v0 v1 v2 n = none := by
  by_contra hne
  have h := render_isSome_projections cp sys mat V P W H v0 v1 v2 n
    (Option.ne_none_iff_isSome.1 hne)
  rcases hnone with h0 | h1 | h2
  · rw [h0] at h
    simp at h
  · rw [h1] at h
    simp at h
  · rw [h2] at h
    simp at h

/-- Evaluation rule for `project_to_screen` on the success path: with the
camera-space `z` negative, the homogeneous result known, its `w` nonzero
and the NDC `x`/`y` inside `[-1, 1]`, the projection returns the pixel
coordinates. -/
theorem project_to_screen_eval (p : Vec3f) (M : Mat4R) (W H : ℕ) (q : Vec4f)
    (hq : Mat4R.multiply_point_4d M p = q) (hz : p.z < 0) (hw : q.w ≠ 0)
    (h1 : ¬(q.x / q.w < -1)) (h2 : ¬(q.x / q.w > 1))
    (h3 : ¬(q.y / q.w < -1)) (h4 : ¬(q.y / q.w > 1)) :
    project_to_screen p M W H =
      some ((q.x / q.w + 1) * 0.5 * (W : ℝ), (1 - q.y / q.w) * 0.5 * (H : ℝ)) := by
  simp only [project_to_screen, hq]
  rw [if_neg (not_le.2 hz), if_neg hw,
    if_neg (by simp only [not_or]; exact ⟨h1, h2, h3, h4⟩)]

/-- Evaluation rule for the per-triangle render body on the success path:
not culled, all camera-space `z` negative, all three projections
successful -- the draw call is issued with the projected points, the
`-z/100` depths, and the color of the lighting evaluated at the
centroid. -/
theorem render_game_object_triangle_eval (cp : Vec3f) (sys : LightingSystem)
    (mat : Material) (V P : Mat4R) (W H : ℕ) (v0 v1 v2 n : Vec3f)
    (hcull : ¬(Vec3f.dot n (Vec3f.normalize (cp -
      ⟨(v0.x + v1.x + v2.x) / 3, (v0.y + v1.y + v2.y) / 3,
       (v0.z + v1.z + v2.z) / 3⟩)) < 0))
    (c0 c1 c2 : Vec3f) (h0 : Mat4R.multiply_point V v0 = c0)
    (h1 : Mat4R.multiply_point V v1 = c1) (h2 : Mat4R.multiply_point V v2 = c2)
    (hz0 : ¬(c0.z ≥ 0)) (hz1 : ¬(c1.z ≥ 0)) (hz2 : ¬(c2.z ≥ 0))
    (s0 s1 s2 : ℝ × ℝ) (hp0 : project_to_screen c0 P W H = some s0)
    (hp1 : project_to_screen c1 P W H = some s1)
    (hp2 : project_to_screen c2 P W H = some s2) :
    render_game_object_triangle cp sys mat V P W H v0 v1 v2 n =
      some ⟨s0, s1, s2, -c0.z / 100, -c1.z / 100, -c2.z / 100,
        vec3_to_color (sys.calculate_lighting
          ⟨(v0.x + v1.x + v2.x) / 3, (v0.y + v1.y + v2.y) / 3,
           (v0.z + v1.z + v2.z) / 3⟩ n cp mat)⟩ := by
  simp only [render_game_object_triangle, h0, h1, h2, hp0, hp1, hp2]
  rw [if_neg hcull, if_neg (by simp only [not_or]; exact ⟨hz0, hz1, hz2⟩)]

/-- The view matrix of the canonical camera (eye at the origin looking down
`-z` with up `+y`): the identity, as a matrix literal. -/
def idView : Mat4R :=
  Matrix.of ![![1, 0, 0, 0], ![0, 1, 0, 0], ![0, 0, 1, 0], ![0, 0, 0, 1]]

/-- C4 (amended): during a Scene render pass, `project_to_screen` accepts a
camera-space point exactly when its `z` is negative, its homogeneous `w` is
nonzero and its NDC `x` and `y` lie in `[-1, 1]` (NDC `z` is never computed
or checked); a triangle is rasterized only if all three of its camera-space
vertices pass that test, and if any one of them fails the whole triangle is
dropped for the frame (whole-triangle reject, not sub-triangle
clipping). -/
theorem C4_whole_triangle_reject (camera_position : Vec3f)
    (lighting : LightingSystem) (material : Material)
    (view_matrix proj_matrix : Mat4R) (width height : ℕ)
    (v0 v1 v2 world_normal : Vec3f) :
    (∀ p : Vec3f,
      (project_to_screen p proj_matrix width height).isSome = true ↔
        p.z < 0 ∧ (Mat4R.multiply_point_4d proj_matrix p).w ≠ 0 ∧
        -1 ≤ (Mat4R.multiply_point_4d proj_matrix p).x /
          (Mat4R.multiply_point_4d proj_matrix p).w ∧
        (Mat4R.multiply_point_4d proj_matrix p).x /
          (Mat4R.multiply_point_4d proj_matrix p).w ≤ 1 ∧
        -1 ≤ (Mat4R.multiply_point_4d proj_matrix p).y /
          (Mat4R.multiply_point_4d proj_matrix p).w ∧
        (Mat4R.multiply_point_4d proj_matrix p).y /
          (Mat4R.multiply_point_4d proj_matrix p).w ≤ 1) ∧
    ((render_game_object_triangle camera_position lighting material view_matrix
        proj_matrix width height v0 v1 v2 world_normal).isSome = true →
      (project_to_screen (Mat4R.multiply_point view_matrix v0) proj_matrix
        width height).isSome = true ∧
      (project_to_screen (Mat4R.multiply_point view_matrix v1) proj_matrix
        width height).isSome = true ∧
      (project_to_screen (Mat4R.multiply_point view_matrix v2) proj_matrix
        width height).isSome = true) ∧
    ((project_to_screen (Mat4R.multiply_point view_matrix v0) proj_matrix
        width height = none ∨
      project_to_screen (Mat4R.multiply_point view_matrix v1) proj_matrix
        width height = none ∨
      project_to_screen (Mat4R.multiply_point view_matrix v2) proj_matrix
        width height = none) →
      render_game_object_triangle camera_position lighting material view_matrix
        proj_matrix width height v0 v1 v2 world_normal = none) :=
  ⟨fun p => project_to_screen_isSome_iff p proj_matrix width height,
   render_isSome_projections camera_position lighting material view_matrix
     proj_matrix width height v0 v1 v2 world_normal,
   render_none_of_projection_none camera_position lighting material view_matrix
     proj_matrix width height v0 v1 v2 world_normal⟩

/-- Witness for C4: a vertex at camera-space `z = +1` (behind the camera)
fails to project, and the whole triangle containing it is dropped. -/
theorem C4_whole_triangle_reject_witness :
    render_game_object_triangle ⟨0, 0, 0⟩ ⟨[], ⟨0, 0, 0⟩, 0⟩
      ⟨⟨1, 1, 1⟩, ⟨1, 1, 1⟩, 32, 1 / 10⟩ idView
      (Mat4R.perspective (Real.pi / 2) 1 (1 / 10) 100) 4 4
      ⟨0, 0, 1⟩ ⟨1, 0, 1⟩ ⟨0, 1, 1⟩ ⟨0, 0, 1⟩ = none :=
  (C4_whole_triangle_reject ⟨0, 0, 0⟩ ⟨[], ⟨0, 0, 0⟩, 0⟩
      ⟨⟨1, 1, 1⟩, ⟨1, 1, 1⟩, 32, 1 / 10⟩ idView
      (Mat4R.perspective (Real.pi / 2) 1 (1 / 10) 100) 4 4
      ⟨0, 0, 1⟩ ⟨1, 0, 1⟩ ⟨0, 1, 1⟩ ⟨0, 0, 1⟩).2.2
    (Or.inl (by
      have hv : Mat4R.multiply_point idView ⟨0, 0, 1⟩ = ⟨0, 0, 1⟩ := by
        simp only [idView, Mat4R.multiply_point_entries]
        simp only [Vec3f.mk.injEq]
        norm_num
      rw [hv]
      simp only [project_to_screen]
      rw [if_pos (show (Vec3f.mk (0 : ℝ) 0 1).z ≥ 0 by norm_num)]))

/-- Counterexample to C4 as stated: the NDC `z` of a vertex is NOT checked.
With the canonical camera (identity view, the spec's perspective matrix
with `fovY = pi/2`, aspect 1, near 1/10, far 100), the triangle
`(-100,-100,-200), (100,-100,-200), (-100,100,-200)` lies far beyond the
`far = 100` plane: the NDC `z` of its first vertex is `1000/999 > 1`.  Its
NDC `x` and `y` are `+-1/2`, so every vertex projects successfully and the
triangle IS rasterized, contradicting "every NDC coordinate of every vertex
lies within `[-1,1]`". -/
theorem C4_ndc_z_outside_unit_range_still_rasterized :
    (render_game_object_triangle ⟨0, 0, 0⟩ ⟨[], ⟨0, 0, 0⟩, 0⟩
        ⟨⟨1, 1, 1⟩, ⟨1, 1, 1⟩, 32, 1 / 10⟩ idView
        (Mat4R.perspective (Real.pi / 2) 1 (1 / 10) 100) 4 4
        ⟨-100, -100, -200⟩ ⟨100, -100, -200⟩ ⟨-100, 100, -200⟩
        ⟨0, 0, 1⟩).isSome = true ∧
    (Mat4R.multiply_point_4d (Mat4R.perspective (Real.pi / 2) 1 (1 / 10) 100)
        (Mat4R.multiply_point idView ⟨-100, -100, -200⟩)).z /
      (Mat4R.multiply_point_4d (Mat4R.perspective (Real.pi / 2) 1 (1 / 10) 100)
        (Mat4R.multiply_point idView ⟨-100, -100, -200⟩)).w > 1 := by
  have hf : 1 / Real.tan (Real.pi / 2 / 2) = 1 := by
    rw [show Real.pi / 2 / 2 = Real.pi / 4 by ring, Real.tan_pi_div_four]
    norm_num
  have hv0 : Mat4R.multiply_point idView ⟨-100, -100, -200⟩ =
      (⟨-100, -100, -200⟩ : Vec3f) := by
    simp only [idView, Mat4R.multiply_point_entries]
    simp only [Vec3f.mk.injEq]
    norm_num
  have hv1 : Mat4R.multiply_point idView ⟨100, -100, -200⟩ =
      (⟨100, -100, -200⟩ : Vec3f) := by
    simp only [idView, Mat4R.multiply_point_entries]
    simp only [Vec3f.mk.injEq]
    norm_num
  have hv2 : Mat4R.multiply_point idView ⟨-100, 100, -200⟩ =
      (⟨-100, 100, -200⟩ : Vec3f) := by
    simp only [idView, Mat4R.multiply_point_entries]
    simp only [Vec3f.mk.injEq]
    norm_num
  have h4d0 : Mat4R.multiply_point_4d
      (Mat4R.perspective (Real.pi / 2) 1 (1 / 10) 100) ⟨-100, -100, -200⟩ =
      (⟨-100, -100, 200000 / 999, 200⟩ : Vec4f) := by
    rw [Mat4R.perspective_def, Mat4R.multiply_point_4d_entries]
    simp only [Vec4f.mk.injEq, hf]
    norm_num
  have h4d1 : Mat4R.multiply_point_4d
      (Mat4R.perspective (Real.pi / 2) 1 (1 / 10) 100) ⟨100, -100, -200⟩ =
      (⟨100, -100, 200000 / 999, 200⟩ : Vec4f) := by
    rw [Mat4R.perspective_def, Mat4R.multiply_point_4d_entries]
    simp only [Vec4f.mk.injEq, hf]
    norm_num
  have h4d2 : Mat4R.multiply_point_4d
      (Mat4R.perspective (Real.pi / 2) 1 (1 / 10) 100) ⟨-100, 100, -200⟩ =
      (⟨-100, 100, 200000 / 999, 200⟩ : Vec4f) := by
    rw [Mat4R.perspective_def, Mat4R.multiply_point_4d_entries]
    simp only [Vec4f.mk.injEq, hf]
    norm_num
  have hp0 := project_to_screen_eval ⟨-100, -100, -200⟩
    (Mat4R.perspective (Real.pi / 2) 1 (1 / 10) 100) 4 4 _ h4d0
    (by norm_num) (by norm_num) (by norm_num) (by norm_num) (by norm_num)
    (by norm_num)
  have hp1 := project_to_screen_eval ⟨100, -100, -200⟩
    (Mat4R.perspective (Real.pi / 2) 1 (1 / 10) 100) 4 4 _ h4d1
    (by norm_num) (by norm_num) (by norm_num) (by norm_num) (by norm_num)
    (by norm_num)
  have hp2 := project_to_screen_eval ⟨-100, 100, -200⟩
    (Mat4R.perspective (Real.pi / 2) 1 (1 / 10) 100) 4 4 _ h4d2
    (by norm_num) (by norm_num) (by norm_num) (by norm_num) (by norm_num)
    (by norm_num)
  have hL : (0 : ℝ) < Vec3f.length ⟨100 / 3, 100 / 3, 200⟩ :=
    Real.sqrt_pos.2 (by norm_num)
  have hdir : Vec3f.dot ⟨0, 0, 1⟩ (Vec3f.normalize ⟨100 / 3, 100 / 3, 200⟩) ≥ 0 := by
    rw [Vec3f.normalize, if_pos hL]
    simp only [Vec3f.dot]
    norm_num
    positivity
  constructor
  · rw [render_game_object_triangle_eval ⟨0, 0, 0⟩ ⟨[], ⟨0, 0, 0⟩, 0⟩
      ⟨⟨1, 1, 1⟩, ⟨1, 1, 1⟩, 32, 1 / 10⟩ idView
      (Mat4R.perspective (Real.pi / 2) 1 (1 / 10) 100) 4 4
      ⟨-100, -100, -200⟩ ⟨100, -100, -200⟩ ⟨-100, 100, -200⟩ ⟨0, 0, 1⟩
      (by
        rw [Vec3f.sub_def]
        norm_num
        exact hdir)
      _ _ _ hv0 hv1 hv2 (by norm_num) (by norm_num) (by norm_num)
      _ _ _ hp0 hp1 hp2]
    rfl
  · rw [hv0, h4d0]
    norm_num
